import Mathlib

/-!
Verification development for the blooming library: a Bloom filter
(src/lib.rs), a counting Bloom filter (src/counting_bloom.rs), a packed
vector of fixed-width saturating counters (src/packed_vec.rs) and a
double-hashing stream (src/hashes.rs).

Modelling conventions:
* the target platform is 64-bit, so usize has 64 bits; usize values are
  Nat with explicit reduction modulo 2^64 where the source can overflow;
* a Rust panic (out-of-bounds indexing, unwrap of None, assert failure)
  is modelled as the Option value none; operations that mutate through
  a mutable reference return the updated structure explicitly;
* the murmur3 128-bit digest is an external collaborator: operations
  taking a key are modelled as taking the 16-byte digest of that key
  directly (the digest function is deterministic, so equal keys give
  equal digests);
* the f64 sizing arithmetic of the constructors is modelled over the
  real numbers (the construction-time assert compares exactly, and the
  sizing formulas are idealized to exact real arithmetic).
-/

namespace Blooming

/-- Modulus of 64-bit machine words (usize and u64 on the 64-bit target). -/
def U64 : Nat := 2 ^ 64

/-- BigEndian read_u64 from byteorder: reads bytes buf[off], ..., buf[off+7]
as a big-endian 64-bit unsigned integer. Out-of-range reads default to 0
(the digests in use always have 16 bytes, so offsets 0 and 4 are in range). -/
def readU64BE (buf : List Nat) (off : Nat) : Nat :=
  ((List.range 8).map (fun i => buf.getD (off + i) 0)).foldl
    (fun acc b => acc * 256 + b) 0

/-- The Hashes struct of src/hashes.rs: state of the Kirsch-Mitzenmacher
double-hashing stream. -/
structure Hashes where
  base : Nat
  increment : Nat
deriving DecidableEq, Repr

/-- Hashes::new. -/
def Hashes.new (hash1 hash2 : Nat) : Hashes :=
  { base := hash1, increment := hash2 }

/-- Iterator::next for Hashes: returns Some(base) and advances base by
increment with wrapping 64-bit addition. -/
def Hashes.next (h : Hashes) : Option Nat × Hashes :=
  (some h.base, { base := (h.base + h.increment) % U64, increment := h.increment })

/-- State of the stream after n calls to next. -/
def Hashes.advance (h : Hashes) : Nat → Hashes
  | 0 => h
  | n + 1 => (h.next).2.advance n

/-- The value produced by the n-th call to next (n = 0, 1, 2, ...). -/
def Hashes.nth (h : Hashes) (n : Nat) : Option Nat :=
  ((h.advance n).next).1

/-- The list of the first n values of the stream, as consumed by
Iterator::take(n) in the filter operations. -/
def Hashes.take (h : Hashes) : Nat → List Nat
  | 0 => []
  | n + 1 =>
    match h.next with
    | (some v, h2) => v :: h2.take n
    | (none, _) => []

/-- Bloom::key_hashes and CountingBloom::key_hashes (identical code): the
16-byte murmur3 digest of the key is split into hash1 = bytes 0..8 read
big-endian and hash2 = bytes 4..12 read big-endian (overlapping slices,
reproduced from the source as-is). The digest itself is the input here. -/
def key_hashes (digest : List Nat) : Hashes :=
  Hashes.new (readU64BE digest 0) (readU64BE digest 4)

/-- PackedVec::cap_value_to_valid_range: min(max(value, 0), max_value);
the max with 0 is the identity on unsigned values. -/
def cap_value_to_valid_range (value max_value : Nat) : Nat :=
  min (max value 0) max_value

/-- The PackedVec struct of src/packed_vec.rs. -/
structure PackedVec where
  num_elem : Nat
  element_size_bits : Nat
  bucket_size_bits : Nat
  elements_per_bucket : Nat
  data : List Nat
deriving DecidableEq, Repr

/-- PackedVec::new on the 64-bit target: bucket_size_bits = 64,
elements_per_bucket = floor(64 / element_size_bits), and the data vector
has ceil(num_elem / elements_per_bucket) zeroed words. The source computes
the two divisions in f64, which is exact over the representable range;
they are rendered here as exact Nat floor and ceiling divisions. -/
def PackedVec.new (num_elem element_size_bits : Nat) : PackedVec :=
  let bucket_size_bits := 64
  let elements_per_bucket := bucket_size_bits / element_size_bits
  let vec_size := (num_elem + elements_per_bucket - 1) / elements_per_bucket
  { num_elem := num_elem
    element_size_bits := element_size_bits
    bucket_size_bits := bucket_size_bits
    elements_per_bucket := elements_per_bucket
    data := List.replicate vec_size 0 }

/-- PackedVec::len. -/
def PackedVec.len (v : PackedVec) : Nat :=
  v.num_elem

/-- PackedVec::with_element: the read-modify-write core. Returns none where
the source panics (self.data[bucket_index] with bucket_index out of range);
otherwise returns the element that was read together with the resulting
state (unchanged when f returns None). The bitwise complement of the clear
mask is 64-bit complement, written as xor with the all-ones word. -/
def PackedVec.with_element (v : PackedVec) (index : Nat) (f : Nat → Option Nat) :
    Option (Nat × PackedVec) :=
  let bucket_index := index / v.elements_per_bucket
  match v.data.get? bucket_index with
  | none => none
  | some bucket =>
    let element_index := index % v.elements_per_bucket
    let element_mask := if v.element_size_bits = 64 then U64 - 1
      else 2 ^ v.element_size_bits - 1
    let shift_size := v.bucket_size_bits - v.element_size_bits * (element_index + 1)
    let element := bucket >>> shift_size &&& element_mask
    match f element with
    | some new_element =>
      let new_value := cap_value_to_valid_range new_element element_mask
      let clear_mask := (U64 - 1) ^^^ (element_mask <<< shift_size)
      let cleared_bucket := bucket &&& clear_mask
      let new_bucket := cleared_bucket ||| new_value <<< shift_size
      some (element, { v with data := v.data.set bucket_index new_bucket })
    | none => some (element, v)

/-- PackedVec::increment: the closure computes element + 1 in usize
arithmetic, so the addition itself wraps modulo 2^64 (release-build
semantics; a debug build panics on the overflow, which is reachable only
with element_size_bits = 64 and the counter at its maximum) before
cap_value_to_valid_range clamps the result. -/
def PackedVec.increment (v : PackedVec) (index : Nat) : Option PackedVec :=
  (v.with_element index (fun element => some ((element + 1) % U64))).map
    (fun r => r.2)

/-- PackedVec::decrement: 0 stays 0, otherwise element - 1. -/
def PackedVec.decrement (v : PackedVec) (index : Nat) : Option PackedVec :=
  (v.with_element index
    (fun element => if element = 0 then some 0 else some (element - 1))).map
    (fun r => r.2)

/-- PackedVec::get: reads through with_element with a closure that returns
None, so no write happens; the source returns Some(element) whenever it
does not panic. The unchanged state is returned to model the mutable
borrow explicitly. -/
def PackedVec.get (v : PackedVec) (index : Nat) : Option (Nat × PackedVec) :=
  v.with_element index (fun _ => none)

/-- PackedVec::set: writes cap_value_to_valid_range(value, mask). -/
def PackedVec.set (v : PackedVec) (index : Nat) (value : Nat) : Option PackedVec :=
  (v.with_element index (fun _ => some value)).map (fun r => r.2)

/-- Specification helper (not in the source): the value stored at a logical
index, read exactly the way with_element reads it. -/
def PackedVec.valAt (v : PackedVec) (index : Nat) : Nat :=
  let bucket := v.data.getD (index / v.elements_per_bucket) 0
  let element_mask := if v.element_size_bits = 64 then U64 - 1
    else 2 ^ v.element_size_bits - 1
  let shift_size :=
    v.bucket_size_bits - v.element_size_bits * (index % v.elements_per_bucket + 1)
  bucket >>> shift_size &&& element_mask

/-- Specification helper (not in the source): the word produced by the
write branch of with_element when the closure returns ne for index i. -/
def PackedVec.writeWord (v : PackedVec) (index ne : Nat) : Nat :=
  let element_mask := if v.element_size_bits = 64 then U64 - 1
    else 2 ^ v.element_size_bits - 1
  let shift_size :=
    v.bucket_size_bits - v.element_size_bits * (index % v.elements_per_bucket + 1)
  (v.data.getD (index / v.elements_per_bucket) 0 &&&
      ((U64 - 1) ^^^ (element_mask <<< shift_size))) |||
    cap_value_to_valid_range ne element_mask <<< shift_size

/-- Well-formedness of a PackedVec: exactly the shape produced by
PackedVec::new for 1 <= element_size_bits <= 64 and maintained by every
operation (each data word is a 64-bit machine word). -/
def PackedVec.WF (v : PackedVec) : Prop :=
  1 ≤ v.element_size_bits ∧ v.element_size_bits ≤ 64 ∧
  v.bucket_size_bits = 64 ∧
  v.elements_per_bucket = 64 / v.element_size_bits ∧
  v.data.length = (v.num_elem + v.elements_per_bucket - 1) / v.elements_per_bucket ∧
  ∀ w ∈ v.data, w < U64

/-- The Bloom struct of src/lib.rs; the bit_vec is a list of booleans. -/
structure Bloom where
  bit_vec : List Bool
  num_hashes : Nat
deriving DecidableEq, Repr

/-- BitVec::get from the bit_vec crate: Some(bit) when in range. -/
def bvGet (l : List Bool) (i : Nat) : Option Bool :=
  l.get? i

/-- BitVec::set from the bit_vec crate: panics (none) when out of range. -/
def bvSet (l : List Bool) (i : Nat) (b : Bool) : Option (List Bool) :=
  if i < l.length then some (l.set i b) else none

/-- Bloom::add: for each of the first num_hashes stream values, set the bit
at hash mod len to true. -/
def Bloom.add (b : Bloom) (digest : List Nat) : Option Bloom :=
  (Hashes.take (key_hashes digest) b.num_hashes).foldlM
    (fun st h =>
      let count := st.bit_vec.length
      (bvSet st.bit_vec (h % count) true).map
        (fun bv => { st with bit_vec := bv })) b

/-- Bloom::contains: conjunction of the bits at the key positions,
unwrapping each lookup. -/
def Bloom.contains (b : Bloom) (digest : List Nat) : Option Bool :=
  (Hashes.take (key_hashes digest) b.num_hashes).foldlM
    (fun acc h =>
      let count := b.bit_vec.length
      (bvGet b.bit_vec (h % count)).map (fun bit => acc && bit)) true

/-- A sequence of Bloom::add calls. -/
def Bloom.addAll (b : Bloom) (ds : List (List Nat)) : Option Bloom :=
  ds.foldlM Bloom.add b

/-- The CountingBloom struct of src/counting_bloom.rs. -/
structure CountingBloom where
  packed_vec : PackedVec
  num_hashes : Nat
deriving DecidableEq, Repr

/-- CountingBloom::add: increment the counter at each key position. -/
def CountingBloom.add (c : CountingBloom) (digest : List Nat) : Option CountingBloom :=
  (Hashes.take (key_hashes digest) c.num_hashes).foldlM
    (fun st h =>
      let count := st.packed_vec.len
      (st.packed_vec.increment (h % count)).map
        (fun pv => { st with packed_vec := pv })) c

/-- CountingBloom::remove: decrement the counter at each key position. -/
def CountingBloom.remove (c : CountingBloom) (digest : List Nat) : Option CountingBloom :=
  (Hashes.take (key_hashes digest) c.num_hashes).foldlM
    (fun st h =>
      let count := st.packed_vec.len
      (st.packed_vec.decrement (h % count)).map
        (fun pv => { st with packed_vec := pv })) c

/-- CountingBloom::contains: conjunction of counter positivity checks at
the key positions; the mutable borrow taken by get is threaded through
the accumulator. -/
def CountingBloom.contains (c : CountingBloom) (digest : List Nat) :
    Option (Bool × CountingBloom) :=
  (Hashes.take (key_hashes digest) c.num_hashes).foldlM
    (fun acc h =>
      let st := acc.2
      let count := st.packed_vec.len
      (st.packed_vec.get (h % count)).map
        (fun r => (acc.1 && decide (0 < r.1), { st with packed_vec := r.2 }))) (true, c)

/-- The slot indices a key occupies in a counting filter. -/
def CountingBloom.slots (c : CountingBloom) (digest : List Nat) : List Nat :=
  (Hashes.take (key_hashes digest) c.num_hashes).map
    (fun h => h % c.packed_vec.num_elem)

/-- A mixed sequence of CountingBloom operations: (true, d) is add(d) and
(false, d) is remove(d). -/
def CountingBloom.applyOps (c : CountingBloom) (ops : List (Bool × List Nat)) :
    Option CountingBloom :=
  ops.foldlM (fun st op => if op.1 then st.add op.2 else st.remove op.2) c

/-- Bloom::optimal_num_bits and CountingBloom::optimal_num_bits (identical
code): round(num_items * ln(1 / max_false_prob) / (ln 2 * ln 2)), with the
f64 arithmetic idealized to real arithmetic; the round-then-cast-to-usize
is round half away from zero followed by a saturating cast, which on the
nonnegative values produced here is Int.toNat of Mathlib round. -/
noncomputable def optimal_num_bits (num_items : Nat) (max_false_prob : ℝ) : Nat :=
  (round ((num_items : ℝ) * Real.log (1 / max_false_prob) /
    (Real.log 2 * Real.log 2))).toNat

/-- Bloom::optimal_num_hashes and CountingBloom::optimal_num_hashes
(identical code): round(num_bits * ln 2 / num_items). For num_items = 0
the reachable case is num_bits = 0, where the f64 computation gives
round(NaN) cast to usize, which is 0, matching division by zero on reals. -/
noncomputable def optimal_num_hashes (num_bits num_items : Nat) : Nat :=
  (round ((num_bits : ℝ) * Real.log 2 / (num_items : ℝ))).toNat

/-- Bloom::new and CountingBloom::new share this structure: assert that
max_false_prob lies strictly between 0 and 1 (a failed assert is a panic,
modelled as none, and precedes the sizing and the allocation), then derive
the two sizes. The result is the pair (num_bits, num_hashes) from which
the filter is then assembled; nothing after the assert can fail. -/
noncomputable def filter_new (num_items : Nat) (max_false_prob : ℝ) :
    Option (Nat × Nat) :=
  if 0 < max_false_prob ∧ max_false_prob < 1 then
    some (optimal_num_bits num_items max_false_prob,
      optimal_num_hashes (optimal_num_bits num_items max_false_prob) num_items)
  else none

/-- Bloom::new assembled: bit_vec = num_bits false bits. -/
noncomputable def Bloom.new (num_items : Nat) (max_false_prob : ℝ) : Option Bloom :=
  (filter_new num_items max_false_prob).map
    (fun p => { bit_vec := List.replicate p.1 false, num_hashes := p.2 })

/-- CountingBloom::new assembled: a PackedVec of num_bits 4-bit counters. -/
noncomputable def CountingBloom.new (num_items : Nat) (max_false_prob : ℝ) :
    Option CountingBloom :=
  (filter_new num_items max_false_prob).map
    (fun p => { packed_vec := PackedVec.new p.1 4, num_hashes := p.2 })

/-- Well-formedness of a Bloom filter state: either the bit vector is
nonempty or no hashes are consumed; Bloom::new only produces such
states (num_bits = 0 forces num_hashes = 0). -/
def Bloom.WF (b : Bloom) : Prop :=
  0 < b.bit_vec.length ∨ b.num_hashes = 0

/-- The slot indices a key occupies in a Bloom filter. -/
def Bloom.slots (b : Bloom) (digest : List Nat) : List Nat :=
  (Hashes.take (key_hashes digest) b.num_hashes).map
    (fun h => h % b.bit_vec.length)

/-- Well-formedness of a CountingBloom state: the backing vector is well
formed with 4-bit counters (as CountingBloom::new builds it), and either
it is nonempty or no hashes are consumed. -/
def CountingBloom.WF (c : CountingBloom) : Prop :=
  c.packed_vec.WF ∧ c.packed_vec.element_size_bits = 4 ∧
  (0 < c.packed_vec.num_elem ∨ c.num_hashes = 0)

instance (v : PackedVec) : Decidable v.WF := by
  unfold PackedVec.WF
  infer_instance

instance (b : Bloom) : Decidable b.WF := by
  unfold Bloom.WF
  infer_instance

instance (c : CountingBloom) : Decidable c.WF := by
  unfold CountingBloom.WF
  infer_instance

/-! ## Bit-field toolkit

The read-modify-write in with_element clears a contiguous bit field with a
complement mask and ORs the new field in. The following lemmas describe
one such write on a single 64-bit word. -/

theorem testBit_eq_false_of_lt_64 {b : Nat} (hb : b < 2 ^ 64) {j : Nat} (hj : 64 ≤ j) :
    b.testBit j = false :=
  Nat.testBit_lt_two_pow (lt_of_lt_of_le hb (Nat.pow_le_pow_right (by norm_num) hj))

theorem field_write_lt {b nv s eb : Nat} (hb : b < 2 ^ 64) (hse : s + eb ≤ 64)
    (hnv : nv ≤ 2 ^ eb - 1) :
    (b &&& ((2 ^ 64 - 1) ^^^ ((2 ^ eb - 1) <<< s))) ||| nv <<< s < 2 ^ 64 := by
  apply Nat.or_lt_two_pow
  · exact lt_of_le_of_lt Nat.and_le_left hb
  · have h1 : nv < 2 ^ eb := lt_of_le_of_lt hnv (Nat.sub_lt (Nat.pos_pow_of_pos eb (by norm_num)) one_pos)
    calc nv <<< s = nv * 2 ^ s := Nat.shiftLeft_eq _ _
      _ < 2 ^ eb * 2 ^ s := by
          exact Nat.mul_lt_mul_of_lt_of_le h1 le_rfl (Nat.pos_pow_of_pos s (by norm_num))
      _ = 2 ^ (s + eb) := by rw [← pow_add, Nat.add_comm]
      _ ≤ 2 ^ 64 := Nat.pow_le_pow_right (by norm_num) hse

theorem field_write_read {b nv s eb : Nat} (hb : b < 2 ^ 64) (hse : s + eb ≤ 64)
    (hnv : nv ≤ 2 ^ eb - 1) :
    (((b &&& ((2 ^ 64 - 1) ^^^ ((2 ^ eb - 1) <<< s))) ||| nv <<< s) >>> s) &&& (2 ^ eb - 1)
      = nv := by
  apply Nat.eq_of_testBit_eq
  intro i
  simp only [Nat.testBit_and, Nat.testBit_or, Nat.testBit_xor, Nat.testBit_shiftLeft,
    Nat.testBit_shiftRight, Nat.testBit_two_pow_sub_one]
  by_cases hi : i < eb
  · have h1 : s + i < 64 := by omega
    have h2 : s + i - s = i := by omega
    have h3 : s ≤ s + i := by omega
    simp [hi, h1, h2, h3]
  · have h6 : nv < 2 ^ eb := by
      have h0 : 0 < (2 : Nat) ^ eb := Nat.pos_pow_of_pos eb (by norm_num)
      omega
    have h4 : nv.testBit i = false :=
      Nat.testBit_lt_two_pow
        (lt_of_lt_of_le h6 (Nat.pow_le_pow_right (by norm_num) (by omega)))
    simp [hi, h4]

theorem field_write_frame {b nv s eb : Nat} (hb : b < 2 ^ 64) (hse : s + eb ≤ 64)
    (hnv : nv ≤ 2 ^ eb - 1)
    {t : Nat} (hte : t + eb ≤ 64) (hdisj : t + eb ≤ s ∨ s + eb ≤ t) :
    (((b &&& ((2 ^ 64 - 1) ^^^ ((2 ^ eb - 1) <<< s))) ||| nv <<< s) >>> t) &&& (2 ^ eb - 1)
      = (b >>> t) &&& (2 ^ eb - 1) := by
  apply Nat.eq_of_testBit_eq
  intro i
  simp only [Nat.testBit_and, Nat.testBit_or, Nat.testBit_xor, Nat.testBit_shiftLeft,
    Nat.testBit_shiftRight, Nat.testBit_two_pow_sub_one]
  by_cases hi : i < eb
  · have h1 : t + i < 64 := by omega
    rcases hdisj with hd | hd
    · have h2 : ¬ (s ≤ t + i) := by omega
      simp [hi, h1, h2]
    · have h2 : s ≤ t + i := by omega
      have h3 : ¬ (t + i - s < eb) := by omega
      have h6 : nv < 2 ^ eb := by
        have h0 : 0 < (2 : Nat) ^ eb := Nat.pos_pow_of_pos eb (by norm_num)
        omega
      have h4 : nv.testBit (t + i - s) = false :=
        Nat.testBit_lt_two_pow
          (lt_of_lt_of_le h6 (Nat.pow_le_pow_right (by norm_num) (by omega)))
      simp [hi, h1, h2, h3, h4]
  · simp [hi]

/-! ## PackedVec characterization -/

theorem mask_if_eq {eb : Nat} :
    (if eb = 64 then U64 - 1 else 2 ^ eb - 1) = 2 ^ eb - 1 := by
  split
  · simp_all [U64]
  · rfl

theorem getD_mem {α : Type} {l : List α} {n : Nat} (d : α) (h : n < l.length) :
    l.getD n d ∈ l := by
  rw [List.getD_eq_getElem?_getD, List.getElem?_eq_getElem h]
  exact List.getElem_mem h

theorem get?_eq_some_getD {α : Type} {l : List α} {n : Nat} (d : α) (h : n < l.length) :
    l.get? n = some (l.getD n d) := by
  rw [List.get?_eq_getElem?, List.getD_eq_getElem?_getD, List.getElem?_eq_getElem h]
  rfl

theorem PackedVec.WF.epb_pos {v : PackedVec} (h : v.WF) : 0 < v.elements_per_bucket := by
  obtain ⟨h1, h2, h3, h4, h5, h6⟩ := h
  rw [h4]
  exact Nat.div_pos h2 (by omega)

theorem PackedVec.WF.window_le {v : PackedVec} (h : v.WF) (i : Nat) :
    v.element_size_bits * (i % v.elements_per_bucket) + v.element_size_bits ≤ 64 := by
  have hep : 0 < v.elements_per_bucket := h.epb_pos
  obtain ⟨h1, h2, h3, h4, h5, h6⟩ := h
  have hei : i % v.elements_per_bucket < v.elements_per_bucket := Nat.mod_lt _ hep
  have hmul : v.element_size_bits * (i % v.elements_per_bucket + 1) ≤
      v.element_size_bits * v.elements_per_bucket :=
    Nat.mul_le_mul_left _ (by omega)
  have hdiv : v.element_size_bits * v.elements_per_bucket ≤ 64 := by
    rw [h4, Nat.mul_comm]
    exact Nat.div_mul_le_self 64 _
  have hms : v.element_size_bits * (i % v.elements_per_bucket + 1) =
      v.element_size_bits * (i % v.elements_per_bucket) + v.element_size_bits := by ring
  omega

theorem PackedVec.valAt_le {v : PackedVec} (i : Nat) :
    v.valAt i ≤ 2 ^ v.element_size_bits - 1 := by
  unfold PackedVec.valAt
  rw [mask_if_eq]
  exact Nat.and_le_right

theorem PackedVec.index_div_lt {v : PackedVec} (hWF : v.WF) {i : Nat}
    (hi : i < v.num_elem) : i / v.elements_per_bucket < v.data.length := by
  have hep : 0 < v.elements_per_bucket := hWF.epb_pos
  obtain ⟨h1, h2, h3, h4, h5, h6⟩ := hWF
  rw [h5]
  have e1 : v.num_elem + v.elements_per_bucket - 1 =
      (v.num_elem - 1) + v.elements_per_bucket := by omega
  rw [e1, Nat.add_div_right _ hep]
  have h7 : i / v.elements_per_bucket ≤ (v.num_elem - 1) / v.elements_per_bucket :=
    Nat.div_le_div_right (by omega)
  omega

theorem PackedVec.with_element_eq {v : PackedVec} {i : Nat} (f : Nat → Option Nat)
    (hb : i / v.elements_per_bucket < v.data.length) :
    v.with_element i f =
      match f (v.valAt i) with
      | some ne => some (v.valAt i,
          { v with data := v.data.set (i / v.elements_per_bucket) (v.writeWord i ne) })
      | none => some (v.valAt i, v) := by
  unfold PackedVec.with_element PackedVec.valAt PackedVec.writeWord
  simp only [get?_eq_some_getD 0 hb]

theorem PackedVec.with_element_none {v : PackedVec} {i : Nat} (f : Nat → Option Nat)
    (hb : v.data.length ≤ i / v.elements_per_bucket) :
    v.with_element i f = none := by
  unfold PackedVec.with_element
  simp only [List.get?_eq_getElem?, List.getElem?_eq_none hb]

theorem PackedVec.valAt_eq (v : PackedVec) (i : Nat) :
    v.valAt i = v.data.getD (i / v.elements_per_bucket) 0 >>>
      (v.bucket_size_bits - v.element_size_bits * (i % v.elements_per_bucket + 1)) &&&
      (2 ^ v.element_size_bits - 1) := by
  unfold PackedVec.valAt
  rw [mask_if_eq]

theorem PackedVec.writeWord_eq (v : PackedVec) (i ne : Nat) :
    v.writeWord i ne =
      (v.data.getD (i / v.elements_per_bucket) 0 &&&
        ((2 ^ 64 - 1) ^^^ ((2 ^ v.element_size_bits - 1) <<<
          (v.bucket_size_bits - v.element_size_bits * (i % v.elements_per_bucket + 1))))) |||
      min ne (2 ^ v.element_size_bits - 1) <<<
        (v.bucket_size_bits - v.element_size_bits * (i % v.elements_per_bucket + 1)) := by
  unfold PackedVec.writeWord
  rw [mask_if_eq]
  simp [U64, cap_value_to_valid_range]

theorem PackedVec.write_spec {v : PackedVec} (hWF : v.WF) {i : Nat}
    (hb : i / v.elements_per_bucket < v.data.length) (ne : Nat) {v2 : PackedVec}
    (hv2 : v2 = { v with data := v.data.set (i / v.elements_per_bucket) (v.writeWord i ne) }) :
    v2.WF ∧ v2.num_elem = v.num_elem ∧ v2.element_size_bits = v.element_size_bits ∧
    v2.elements_per_bucket = v.elements_per_bucket ∧
    v2.bucket_size_bits = v.bucket_size_bits ∧
    v2.data.length = v.data.length ∧
    v2.valAt i = min ne (2 ^ v.element_size_bits - 1) ∧
    ∀ j, j ≠ i → v2.valAt j = v.valAt j := by
  have hwin := hWF.window_le i
  have hwinj := hWF.window_le
  have hep : 0 < v.elements_per_bucket := hWF.epb_pos
  obtain ⟨h1, h2, h3, h4, h5, h6⟩ := hWF
  have hB : v.data.getD (i / v.elements_per_bucket) 0 < 2 ^ 64 := by
    have := h6 _ (getD_mem 0 hb)
    simpa [U64] using this
  have hms : v.element_size_bits * (i % v.elements_per_bucket + 1) =
      v.element_size_bits * (i % v.elements_per_bucket) + v.element_size_bits := by ring
  have hse : (v.bucket_size_bits - v.element_size_bits * (i % v.elements_per_bucket + 1)) +
      v.element_size_bits ≤ 64 := by omega
  have hWW : v.writeWord i ne < 2 ^ 64 := by
    rw [PackedVec.writeWord_eq]
    exact field_write_lt hB hse (min_le_right _ _)
  subst hv2
  refine ⟨?_, rfl, rfl, rfl, rfl, List.length_set .., ?_, ?_⟩
  · refine ⟨h1, h2, h3, h4, ?_, ?_⟩
    · simp only [List.length_set]
      exact h5
    · intro w hw
      rcases List.mem_or_eq_of_mem_set hw with hw2 | hw2
      · exact h6 w hw2
      · subst hw2
        simpa [U64] using hWW
  · rw [PackedVec.valAt_eq]
    simp only
    rw [List.getD_eq_getElem?_getD, List.getElem?_set_self hb, Option.getD_some,
      PackedVec.writeWord_eq]
    exact field_write_read hB hse (min_le_right _ _)
  · intro j hj
    rw [PackedVec.valAt_eq, PackedVec.valAt_eq]
    simp only
    by_cases hbj : j / v.elements_per_bucket = i / v.elements_per_bucket
    · have hejr : j % v.elements_per_bucket ≠ i % v.elements_per_bucket := by
        intro hmm
        apply hj
        have d1 := Nat.div_add_mod j v.elements_per_bucket
        rw [hbj, hmm] at d1
        have d2 := Nat.div_add_mod i v.elements_per_bucket
        omega
      have hwj := hwinj j
      have hmsj : v.element_size_bits * (j % v.elements_per_bucket + 1) =
          v.element_size_bits * (j % v.elements_per_bucket) + v.element_size_bits := by ring
      have hsej : (v.bucket_size_bits -
          v.element_size_bits * (j % v.elements_per_bucket + 1)) +
          v.element_size_bits ≤ 64 := by omega
      have hdisj : ((v.bucket_size_bits -
            v.element_size_bits * (j % v.elements_per_bucket + 1)) +
            v.element_size_bits ≤
            v.bucket_size_bits - v.element_size_bits * (i % v.elements_per_bucket + 1)) ∨
          ((v.bucket_size_bits -
            v.element_size_bits * (i % v.elements_per_bucket + 1)) +
            v.element_size_bits ≤
            v.bucket_size_bits - v.element_size_bits * (j % v.elements_per_bucket + 1)) := by
        rcases Nat.lt_or_ge (j % v.elements_per_bucket) (i % v.elements_per_bucket) with hlt | hge
        · right
          have hmono : v.element_size_bits * (j % v.elements_per_bucket + 1) ≤
              v.element_size_bits * (i % v.elements_per_bucket) :=
            Nat.mul_le_mul_left _ (by omega)
          omega
        · left
          have hlt2 : i % v.elements_per_bucket < j % v.elements_per_bucket := by omega
          have hmono : v.element_size_bits * (i % v.elements_per_bucket + 1) ≤
              v.element_size_bits * (j % v.elements_per_bucket) :=
            Nat.mul_le_mul_left _ (by omega)
          omega
      rw [hbj, List.getD_eq_getElem?_getD, List.getElem?_set_self hb, Option.getD_some,
        PackedVec.writeWord_eq]
      exact field_write_frame hB hse (min_le_right _ _) hsej hdisj
    · rw [List.getD_eq_getElem?_getD (v.data.set _ _), List.getElem?_set_ne (by omega),
        ← List.getD_eq_getElem?_getD]

theorem PackedVec.get_eq {v : PackedVec} {i : Nat}
    (hb : i / v.elements_per_bucket < v.data.length) :
    v.get i = some (v.valAt i, v) := by
  unfold PackedVec.get
  rw [PackedVec.with_element_eq _ hb]

theorem PackedVec.get_frame {v : PackedVec} {i : Nat} {p : Nat × PackedVec}
    (h : v.get i = some p) : p.2 = v := by
  by_cases hb : i / v.elements_per_bucket < v.data.length
  · rw [PackedVec.get_eq hb] at h
    cases h
    rfl
  · unfold PackedVec.get at h
    rw [PackedVec.with_element_none _ (by omega)] at h
    cases h

theorem PackedVec.with_element_isSome (v : PackedVec) (i : Nat) (f : Nat → Option Nat) :
    (v.with_element i f).isSome = true ↔ i / v.elements_per_bucket < v.data.length := by
  by_cases hb : i / v.elements_per_bucket < v.data.length
  · rw [PackedVec.with_element_eq _ hb]
    cases hf : f (v.valAt i) <;> simp [hf, hb]
  · rw [PackedVec.with_element_none _ (by omega)]
    simp [hb]

theorem PackedVec.increment_spec {v : PackedVec} (hWF : v.WF)
    (heb : v.element_size_bits ≤ 63) {i : Nat}
    (hb : i / v.elements_per_bucket < v.data.length) :
    ∃ v2, v.increment i = some v2 ∧ v2.WF ∧ v2.num_elem = v.num_elem ∧
      v2.element_size_bits = v.element_size_bits ∧
      v2.elements_per_bucket = v.elements_per_bucket ∧
      v2.bucket_size_bits = v.bucket_size_bits ∧
      v2.data.length = v.data.length ∧
      v2.valAt i = min (v.valAt i + 1) (2 ^ v.element_size_bits - 1) ∧
      ∀ j, j ≠ i → v2.valAt j = v.valAt j := by
  have hle := PackedVec.valAt_le (v := v) i
  have hlt : v.valAt i + 1 < U64 := by
    have hpow : (2 : Nat) ^ v.element_size_bits ≤ 2 ^ 63 :=
      Nat.pow_le_pow_right (by norm_num) heb
    have h63 : (2 : Nat) ^ 63 < 2 ^ 64 := by norm_num
    simp only [U64]
    omega
  obtain ⟨hwf2, hnum, heb2, hepb2, hbsb2, hlen2, hvi, hvj⟩ :=
    PackedVec.write_spec hWF hb (v.valAt i + 1) rfl
  refine ⟨_, ?_, hwf2, hnum, heb2, hepb2, hbsb2, hlen2, hvi, hvj⟩
  unfold PackedVec.increment
  rw [PackedVec.with_element_eq _ hb]
  simp [Nat.mod_eq_of_lt hlt]

theorem PackedVec.decrement_spec {v : PackedVec} (hWF : v.WF) {i : Nat}
    (hb : i / v.elements_per_bucket < v.data.length) :
    ∃ v2, v.decrement i = some v2 ∧ v2.WF ∧ v2.num_elem = v.num_elem ∧
      v2.element_size_bits = v.element_size_bits ∧
      v2.elements_per_bucket = v.elements_per_bucket ∧
      v2.bucket_size_bits = v.bucket_size_bits ∧
      v2.data.length = v.data.length ∧
      v2.valAt i = v.valAt i - 1 ∧
      ∀ j, j ≠ i → v2.valAt j = v.valAt j := by
  have hle := PackedVec.valAt_le (v := v) i
  by_cases h0 : v.valAt i = 0
  · obtain ⟨hwf2, hnum, heb2, hepb2, hbsb2, hlen2, hvi, hvj⟩ :=
      PackedVec.write_spec hWF hb 0 rfl
    refine ⟨_, ?_, hwf2, hnum, heb2, hepb2, hbsb2, hlen2, ?_, hvj⟩
    · unfold PackedVec.decrement
      rw [PackedVec.with_element_eq _ hb]
      simp [h0]
    · rw [hvi, h0]
      simp
  · obtain ⟨hwf2, hnum, heb2, hepb2, hbsb2, hlen2, hvi, hvj⟩ :=
      PackedVec.write_spec hWF hb (v.valAt i - 1) rfl
    refine ⟨_, ?_, hwf2, hnum, heb2, hepb2, hbsb2, hlen2, ?_, hvj⟩
    · unfold PackedVec.decrement
      rw [PackedVec.with_element_eq _ hb]
      simp [h0]
    · rw [hvi]
      omega

theorem PackedVec.set_spec {v : PackedVec} (hWF : v.WF) {i : Nat}
    (hb : i / v.elements_per_bucket < v.data.length) (x : Nat) :
    ∃ v2, v.set i x = some v2 ∧ v2.WF ∧ v2.num_elem = v.num_elem ∧
      v2.element_size_bits = v.element_size_bits ∧
      v2.elements_per_bucket = v.elements_per_bucket ∧
      v2.bucket_size_bits = v.bucket_size_bits ∧
      v2.data.length = v.data.length ∧
      v2.valAt i = min x (2 ^ v.element_size_bits - 1) ∧
      ∀ j, j ≠ i → v2.valAt j = v.valAt j := by
  obtain ⟨hwf2, hnum, heb2, hepb2, hbsb2, hlen2, hvi, hvj⟩ :=
    PackedVec.write_spec hWF hb x rfl
  refine ⟨_, ?_, hwf2, hnum, heb2, hepb2, hbsb2, hlen2, hvi, hvj⟩
  unfold PackedVec.set
  rw [PackedVec.with_element_eq _ hb]
  simp

theorem PackedVec.new_WF {n eb : Nat} (h1 : 1 ≤ eb) (h2 : eb ≤ 64) :
    (PackedVec.new n eb).WF := by
  refine ⟨h1, h2, rfl, rfl, by simp [PackedVec.new], ?_⟩
  intro w hw
  have hw0 : w = 0 := List.eq_of_mem_replicate hw
  subst hw0
  simp [U64]

/-! ## Hash stream characterization -/

theorem U64_pos : 0 < U64 := by
  simp [U64]

theorem Hashes.advance_eq {b inc : Nat} (hb : b < U64) (n : Nat) :
    Hashes.advance ⟨b, inc⟩ n = ⟨(b + n * inc) % U64, inc⟩ := by
  induction n generalizing b with
  | zero =>
    simp [Hashes.advance, Nat.mod_eq_of_lt hb]
  | succ n ih =>
    have h2 : (b + inc) % U64 < U64 := Nat.mod_lt _ U64_pos
    show Hashes.advance ⟨(b + inc) % U64, inc⟩ n = _
    rw [ih h2, Nat.mod_add_mod]
    have h3 : b + inc + n * inc = b + (n + 1) * inc := by ring
    rw [h3]

theorem Hashes.nth_eq {b inc : Nat} (hb : b < U64) (n : Nat) :
    Hashes.nth ⟨b, inc⟩ n = some ((b + n * inc) % U64) := by
  unfold Hashes.nth
  rw [Hashes.advance_eq hb]
  rfl

theorem Hashes.next_isSome (h : Hashes) : (h.next).1.isSome = true :=
  rfl

theorem Hashes.take_eq {b inc : Nat} (hb : b < U64) (n : Nat) :
    Hashes.take ⟨b, inc⟩ n = (List.range n).map (fun k => (b + k * inc) % U64) := by
  induction n generalizing b with
  | zero => rfl
  | succ n ih =>
    have h2 : (b + inc) % U64 < U64 := Nat.mod_lt _ U64_pos
    show b :: Hashes.take ⟨(b + inc) % U64, inc⟩ n = _
    rw [ih h2, List.range_succ_eq_map]
    simp only [List.map_cons, List.map_map]
    congr 1
    · simp [Nat.mod_eq_of_lt hb]
    · apply List.map_congr_left
      intro k _
      simp only [Function.comp_apply]
      rw [Nat.mod_add_mod]
      congr 1
      rw [Nat.succ_eq_add_one]
      ring

theorem Hashes.take_length (h : Hashes) (n : Nat) :
    (Hashes.take h n).length = n := by
  induction n generalizing h with
  | zero => rfl
  | succ n ih =>
    show (h.base :: Hashes.take (h.next).2 n).length = n + 1
    simp [ih]

theorem readU64BE_lt {buf : List Nat} (hbytes : ∀ x ∈ buf, x < 256) (off : Nat) :
    readU64BE buf off < U64 := by
  have hstep : ∀ (l : List Nat) (acc B : Nat), (∀ x ∈ l, x < 256) → acc < B →
      l.foldl (fun a b => a * 256 + b) acc < B * 256 ^ l.length := by
    intro l
    induction l with
    | nil => intro acc B _ h; simpa using h
    | cons x xs ih =>
      intro acc B hl h
      have hx : x < 256 := hl x (List.mem_cons_self x xs)
      have h2 : acc * 256 + x < B * 256 :=
        calc acc * 256 + x < acc * 256 + 256 := by omega
          _ = (acc + 1) * 256 := by ring
          _ ≤ B * 256 := Nat.mul_le_mul_right _ (by omega)
      have h3 := ih (acc * 256 + x) (B * 256) (fun y hy => hl y (List.mem_cons_of_mem _ hy)) h2
      calc (x :: xs).foldl (fun a b => a * 256 + b) acc
          = xs.foldl (fun a b => a * 256 + b) (acc * 256 + x) := rfl
        _ < B * 256 * 256 ^ xs.length := h3
        _ = B * 256 ^ (x :: xs).length := by
            simp [List.length_cons]
            ring
  have hgetD : ∀ n, buf.getD n 0 < 256 := by
    intro n
    by_cases h : n < buf.length
    · exact hbytes _ (getD_mem 0 h)
    · rw [List.getD_eq_getElem?_getD, List.getElem?_eq_none (by omega)]
      norm_num
  have hall : ∀ x ∈ (List.range 8).map (fun i => buf.getD (off + i) 0), x < 256 := by
    intro x hx
    rcases List.mem_map.mp hx with ⟨k, _, hk⟩
    rw [← hk]
    exact hgetD _
  unfold readU64BE
  have h8 : ((List.range 8).map (fun i => buf.getD (off + i) 0)).length = 8 := by simp
  have hfin := hstep _ 0 1 hall (by norm_num)
  rw [h8] at hfin
  simp only [U64]
  norm_num at hfin ⊢
  omega

/-! ## CountingBloom fold characterization -/

theorem CountingBloom.addFold_spec (L : List Nat) :
    ∀ c : CountingBloom, c.packed_vec.WF → c.packed_vec.element_size_bits = 4 →
      0 < c.packed_vec.num_elem →
      ∃ c2, (L.foldlM (fun st h =>
          (st.packed_vec.increment (h % st.packed_vec.len)).map
            (fun pv => { st with packed_vec := pv })) c) = some c2 ∧
        c2.num_hashes = c.num_hashes ∧ c2.packed_vec.WF ∧
        c2.packed_vec.element_size_bits = 4 ∧
        c2.packed_vec.num_elem = c.packed_vec.num_elem ∧
        ∀ j, j < c.packed_vec.num_elem →
          c2.packed_vec.valAt j =
            min (c.packed_vec.valAt j +
              List.count j (L.map (fun h => h % c.packed_vec.num_elem))) 15 := by
  induction L with
  | nil =>
    intro c hWF heb hne
    refine ⟨c, rfl, rfl, hWF, heb, rfl, ?_⟩
    intro j hj
    have hle := PackedVec.valAt_le (v := c.packed_vec) j
    rw [heb] at hle
    simp only [List.map_nil, List.count_nil, Nat.add_zero]
    omega
  | cons h L ih =>
    intro c hWF heb hne
    have hs0 : h % c.packed_vec.num_elem < c.packed_vec.num_elem := Nat.mod_lt _ hne
    have hdb := PackedVec.index_div_lt hWF hs0
    obtain ⟨pv2, hinc, hwf2, hnum2, heb2, hepb2, hbsb2, hlen2, hvi, hvj⟩ :=
      PackedVec.increment_spec hWF (by omega) hdb
    obtain ⟨c2, hfold, hnh, hwfc2, hebc2, hnec2, hvals⟩ :=
      ih { c with packed_vec := pv2 } hwf2 (by rw [heb2]; exact heb)
        (by show 0 < pv2.num_elem; rw [hnum2]; exact hne)
    refine ⟨c2, ?_, hnh, hwfc2, hebc2, by rw [hnec2]; exact hnum2, ?_⟩
    · rw [List.foldlM_cons]
      simp only [PackedVec.len, hinc, Option.map_some, Option.bind_eq_bind,
        Option.some_bind]
      exact hfold
    · intro j hj
      have hj2 : j < pv2.num_elem := by omega
      have hv := hvals j hj2
      rw [hv]
      show min (pv2.valAt j + List.count j (L.map (fun h => h % pv2.num_elem))) 15 = _
      rw [hnum2]
      by_cases hjs : j = h % c.packed_vec.num_elem
      · have hvi2 : pv2.valAt j = min (c.packed_vec.valAt j + 1) 15 := by
          rw [hjs, hvi, heb]
          norm_num
        rw [hvi2]
        simp only [List.map_cons, List.count_cons]
        have hbeq : (h % c.packed_vec.num_elem == j) = true := by
          simp [hjs]
        rw [hbeq]
        simp only [if_true]
        omega
      · rw [hvj j hjs]
        simp only [List.map_cons, List.count_cons]
        have hbeq : (h % c.packed_vec.num_elem == j) = false := by
          simp
          omega
        rw [hbeq]
        simp

theorem CountingBloom.removeFold_spec (L : List Nat) :
    ∀ c : CountingBloom, c.packed_vec.WF →
      0 < c.packed_vec.num_elem →
      ∃ c2, (L.foldlM (fun st h =>
          (st.packed_vec.decrement (h % st.packed_vec.len)).map
            (fun pv => { st with packed_vec := pv })) c) = some c2 ∧
        c2.num_hashes = c.num_hashes ∧ c2.packed_vec.WF ∧
        c2.packed_vec.element_size_bits = c.packed_vec.element_size_bits ∧
        c2.packed_vec.num_elem = c.packed_vec.num_elem ∧
        ∀ j, j < c.packed_vec.num_elem →
          c2.packed_vec.valAt j =
            c.packed_vec.valAt j -
              List.count j (L.map (fun h => h % c.packed_vec.num_elem)) := by
  induction L with
  | nil =>
    intro c hWF hne
    exact ⟨c, rfl, rfl, hWF, rfl, rfl, by simp⟩
  | cons h L ih =>
    intro c hWF hne
    have hs0 : h % c.packed_vec.num_elem < c.packed_vec.num_elem := Nat.mod_lt _ hne
    have hdb := PackedVec.index_div_lt hWF hs0
    obtain ⟨pv2, hdec, hwf2, hnum2, heb2, hepb2, hbsb2, hlen2, hvi, hvj⟩ :=
      PackedVec.decrement_spec hWF hdb
    obtain ⟨c2, hfold, hnh, hwfc2, hebc2, hnec2, hvals⟩ :=
      ih { c with packed_vec := pv2 } hwf2
        (by show 0 < pv2.num_elem; rw [hnum2]; exact hne)
    refine ⟨c2, ?_, hnh, hwfc2, by rw [hebc2]; exact heb2,
      by rw [hnec2]; exact hnum2, ?_⟩
    · rw [List.foldlM_cons]
      simp only [PackedVec.len, hdec, Option.map_some, Option.bind_eq_bind,
        Option.some_bind]
      exact hfold
    · intro j hj
      have hj2 : j < pv2.num_elem := by omega
      have hv := hvals j hj2
      rw [hv]
      show pv2.valAt j - List.count j (L.map (fun h => h % pv2.num_elem)) = _
      rw [hnum2]
      by_cases hjs : j = h % c.packed_vec.num_elem
      · have hvi2 : pv2.valAt j = c.packed_vec.valAt j - 1 := by
          rw [hjs, hvi]
        rw [hvi2]
        simp only [List.map_cons, List.count_cons]
        have hbeq : (h % c.packed_vec.num_elem == j) = true := by
          simp [hjs]
        rw [hbeq]
        simp only [if_true]
        omega
      · rw [hvj j hjs]
        simp only [List.map_cons, List.count_cons]
        have hbeq : (h % c.packed_vec.num_elem == j) = false := by
          simp
          omega
        rw [hbeq]
        simp

theorem CountingBloom.containsFold_spec (L : List Nat) :
    ∀ (c : CountingBloom) (a : Bool), c.packed_vec.WF → 0 < c.packed_vec.num_elem →
      (L.foldlM (fun acc h =>
          (acc.2.packed_vec.get (h % acc.2.packed_vec.len)).map
            (fun r => (acc.1 && decide (0 < r.1),
              { acc.2 with packed_vec := r.2 }))) ((a, c) : Bool × CountingBloom)) =
        some (a && L.all
          (fun h => decide (0 < c.packed_vec.valAt (h % c.packed_vec.num_elem))), c) := by
  induction L with
  | nil =>
    intro c a hWF hne
    simp
  | cons h L ih =>
    intro c a hWF hne
    have hs0 : h % c.packed_vec.num_elem < c.packed_vec.num_elem := Nat.mod_lt _ hne
    have hdb := PackedVec.index_div_lt hWF hs0
    rw [List.foldlM_cons]
    simp only [PackedVec.len, PackedVec.get_eq hdb, Option.map_some, Option.map_some',
      Option.bind_eq_bind, Option.some_bind]
    have heta : ({ packed_vec := c.packed_vec, num_hashes := c.num_hashes } :
        CountingBloom) = c := rfl
    rw [heta]
    have hIH := ih c (a && decide (0 < c.packed_vec.valAt (h % c.packed_vec.num_elem)))
      hWF hne
    rw [List.all_cons, ← Bool.and_assoc]
    exact hIH

/-! ## CountingBloom operation wrappers -/

theorem CountingBloom.add_spec (c : CountingBloom) (d : List Nat)
    (hWF : c.packed_vec.WF) (heb : c.packed_vec.element_size_bits = 4)
    (hne : 0 < c.packed_vec.num_elem) :
    ∃ c2, c.add d = some c2 ∧ c2.num_hashes = c.num_hashes ∧ c2.packed_vec.WF ∧
      c2.packed_vec.element_size_bits = 4 ∧
      c2.packed_vec.num_elem = c.packed_vec.num_elem ∧
      ∀ j, j < c.packed_vec.num_elem →
        c2.packed_vec.valAt j =
          min (c.packed_vec.valAt j + List.count j (c.slots d)) 15 := by
  obtain ⟨c2, hfold, hnh, hwf2, heb2, hne2, hvals⟩ :=
    CountingBloom.addFold_spec (Hashes.take (key_hashes d) c.num_hashes) c hWF heb hne
  exact ⟨c2, hfold, hnh, hwf2, heb2, hne2, hvals⟩

theorem CountingBloom.remove_spec (c : CountingBloom) (d : List Nat)
    (hWF : c.packed_vec.WF) (hne : 0 < c.packed_vec.num_elem) :
    ∃ c2, c.remove d = some c2 ∧ c2.num_hashes = c.num_hashes ∧ c2.packed_vec.WF ∧
      c2.packed_vec.element_size_bits = c.packed_vec.element_size_bits ∧
      c2.packed_vec.num_elem = c.packed_vec.num_elem ∧
      ∀ j, j < c.packed_vec.num_elem →
        c2.packed_vec.valAt j =
          c.packed_vec.valAt j - List.count j (c.slots d) := by
  obtain ⟨c2, hfold, hnh, hwf2, heb2, hne2, hvals⟩ :=
    CountingBloom.removeFold_spec (Hashes.take (key_hashes d) c.num_hashes) c hWF hne
  exact ⟨c2, hfold, hnh, hwf2, heb2, hne2, hvals⟩

theorem CountingBloom.contains_spec (c : CountingBloom) (d : List Nat)
    (hWF : c.packed_vec.WF) (hne : 0 < c.packed_vec.num_elem) :
    c.contains d =
      some ((c.slots d).all (fun s => decide (0 < c.packed_vec.valAt s)), c) := by
  have h : c.contains d = some (true && (Hashes.take (key_hashes d) c.num_hashes).all
      (fun h => decide (0 < c.packed_vec.valAt (h % c.packed_vec.num_elem))), c) :=
    CountingBloom.containsFold_spec (Hashes.take (key_hashes d) c.num_hashes) c true hWF hne
  rw [h]
  congr 1
  rw [Bool.true_and]
  unfold CountingBloom.slots
  rw [List.all_map]
  rfl

theorem CountingBloom.add_zero {c : CountingBloom} (d : List Nat)
    (h : c.num_hashes = 0) : c.add d = some c := by
  unfold CountingBloom.add
  rw [h]
  rfl

theorem CountingBloom.remove_zero {c : CountingBloom} (d : List Nat)
    (h : c.num_hashes = 0) : c.remove d = some c := by
  unfold CountingBloom.remove
  rw [h]
  rfl

theorem CountingBloom.contains_zero {c : CountingBloom} (d : List Nat)
    (h : c.num_hashes = 0) : c.contains d = some (true, c) := by
  unfold CountingBloom.contains
  rw [h]
  rfl

/-! ## Bloom fold characterization -/

theorem bvSet_getD {l : List Bool} {i : Nat} (hi : i < l.length) (j : Nat) :
    (l.set i true).getD j false = (l.getD j false || decide (j = i)) := by
  by_cases hj : j = i
  · subst hj
    rw [List.getD_eq_getElem?_getD, List.getElem?_set_self hi]
    simp
  · rw [List.getD_eq_getElem?_getD, List.getElem?_set_ne (by omega),
      ← List.getD_eq_getElem?_getD]
    simp [hj]

theorem Bloom.addFold_sets_bits (L : List Nat) :
    ∀ b : Bloom, 0 < b.bit_vec.length →
      ∃ b2, (L.foldlM (fun st h =>
          (bvSet st.bit_vec (h % st.bit_vec.length) true).map
            (fun bv => { st with bit_vec := bv })) b) = some b2 ∧
        b2.num_hashes = b.num_hashes ∧ b2.bit_vec.length = b.bit_vec.length ∧
        ∀ j, b2.bit_vec.getD j false =
          (b.bit_vec.getD j false ||
            decide (j ∈ L.map (fun h => h % b.bit_vec.length))) := by
  induction L with
  | nil =>
    intro b hlen
    exact ⟨b, rfl, rfl, rfl, by simp⟩
  | cons h L ih =>
    intro b hlen
    have hs0 : h % b.bit_vec.length < b.bit_vec.length := Nat.mod_lt _ hlen
    have hset : bvSet b.bit_vec (h % b.bit_vec.length) true =
        some (b.bit_vec.set (h % b.bit_vec.length) true) := by
      unfold bvSet
      rw [if_pos hs0]
    obtain ⟨b2, hfold, hnh, hlen2, hvals⟩ :=
      ih { b with bit_vec := b.bit_vec.set (h % b.bit_vec.length) true }
        (by simpa using hlen)
    have hsetlen : (b.bit_vec.set (h % b.bit_vec.length) true).length =
        b.bit_vec.length := List.length_set ..
    refine ⟨b2, ?_, hnh, by rw [hlen2]; exact hsetlen, ?_⟩
    · rw [List.foldlM_cons]
      simp only [hset, Option.map_some', Option.some_bind]
      exact hfold
    · intro j
      have hv := hvals j
      rw [hv]
      show ((b.bit_vec.set (h % b.bit_vec.length) true).getD j false ||
        decide (j ∈ L.map (fun h2 =>
          h2 % (b.bit_vec.set (h % b.bit_vec.length) true).length))) = _
      rw [hsetlen, bvSet_getD hs0 j]
      simp only [List.map_cons, List.mem_cons, Bool.decide_or, Bool.or_assoc]

theorem Bloom.containsFold_reads_bits (L : List Nat) (b : Bloom)
    (hlen : 0 < b.bit_vec.length) :
    ∀ a : Bool, (L.foldlM (fun acc h =>
        (bvGet b.bit_vec (h % b.bit_vec.length)).map (fun bit => acc && bit)) a) =
      some (a && L.all (fun h => b.bit_vec.getD (h % b.bit_vec.length) false)) := by
  induction L with
  | nil =>
    intro a
    simp
  | cons h L ih =>
    intro a
    have hs0 : h % b.bit_vec.length < b.bit_vec.length := Nat.mod_lt _ hlen
    have hget : bvGet b.bit_vec (h % b.bit_vec.length) =
        some (b.bit_vec.getD (h % b.bit_vec.length) false) := by
      unfold bvGet
      exact get?_eq_some_getD false hs0
    rw [List.foldlM_cons]
    simp only [hget, Option.map_some', Option.some_bind]
    have hIH := ih (a && b.bit_vec.getD (h % b.bit_vec.length) false)
    rw [List.all_cons, ← Bool.and_assoc]
    exact hIH

theorem Bloom.add_sets_bits (b : Bloom) (d : List Nat) (hlen : 0 < b.bit_vec.length) :
    ∃ b2, b.add d = some b2 ∧ b2.num_hashes = b.num_hashes ∧
      b2.bit_vec.length = b.bit_vec.length ∧
      ∀ j, b2.bit_vec.getD j false =
        (b.bit_vec.getD j false || decide (j ∈ b.slots d)) := by
  obtain ⟨b2, hfold, hnh, hlen2, hvals⟩ :=
    Bloom.addFold_sets_bits (Hashes.take (key_hashes d) b.num_hashes) b hlen
  exact ⟨b2, hfold, hnh, hlen2, hvals⟩

theorem Bloom.contains_reads_bits (b : Bloom) (d : List Nat) (hlen : 0 < b.bit_vec.length) :
    b.contains d =
      some ((b.slots d).all (fun s => b.bit_vec.getD s false)) := by
  have h := Bloom.containsFold_reads_bits (Hashes.take (key_hashes d) b.num_hashes) b hlen true
  rw [show b.contains d = _ from h]
  congr 1
  rw [Bool.true_and]
  unfold Bloom.slots
  rw [List.all_map]
  rfl

theorem Bloom.add_zero_hashes {b : Bloom} (d : List Nat) (h : b.num_hashes = 0) :
    b.add d = some b := by
  unfold Bloom.add
  rw [h]
  rfl

theorem Bloom.contains_zero_hashes {b : Bloom} (d : List Nat) (h : b.num_hashes = 0) :
    b.contains d = some true := by
  unfold Bloom.contains
  rw [h]
  rfl

/-! ## Shape preservation without well-formedness -/

theorem PackedVec.with_element_shape {v : PackedVec} {i : Nat} {f : Nat → Option Nat}
    {r : Nat × PackedVec} (h : v.with_element i f = some r) :
    r.2.num_elem = v.num_elem ∧ r.2.element_size_bits = v.element_size_bits ∧
    r.2.bucket_size_bits = v.bucket_size_bits ∧
    r.2.elements_per_bucket = v.elements_per_bucket ∧
    r.2.data.length = v.data.length := by
  by_cases hb : i / v.elements_per_bucket < v.data.length
  · rw [PackedVec.with_element_eq _ hb] at h
    cases hf : f (v.valAt i) with
    | some ne =>
      rw [hf] at h
      cases h
      exact ⟨rfl, rfl, rfl, rfl, List.length_set ..⟩
    | none =>
      rw [hf] at h
      cases h
      exact ⟨rfl, rfl, rfl, rfl, rfl⟩
  · rw [PackedVec.with_element_none _ (by omega)] at h
    cases h

theorem PackedVec.increment_shape {v v2 : PackedVec} {i : Nat}
    (h : v.increment i = some v2) :
    v2.num_elem = v.num_elem ∧ v2.element_size_bits = v.element_size_bits ∧
    v2.bucket_size_bits = v.bucket_size_bits ∧
    v2.elements_per_bucket = v.elements_per_bucket ∧
    v2.data.length = v.data.length := by
  unfold PackedVec.increment at h
  rcases Option.map_eq_some'.mp h with ⟨r, hr, hr2⟩
  rw [← hr2]
  exact PackedVec.with_element_shape hr

theorem PackedVec.decrement_shape {v v2 : PackedVec} {i : Nat}
    (h : v.decrement i = some v2) :
    v2.num_elem = v.num_elem ∧ v2.element_size_bits = v.element_size_bits ∧
    v2.bucket_size_bits = v.bucket_size_bits ∧
    v2.elements_per_bucket = v.elements_per_bucket ∧
    v2.data.length = v.data.length := by
  unfold PackedVec.decrement at h
  rcases Option.map_eq_some'.mp h with ⟨r, hr, hr2⟩
  rw [← hr2]
  exact PackedVec.with_element_shape hr

theorem CountingBloom.addFold_shape (L : List Nat) :
    ∀ c c2 : CountingBloom, (L.foldlM (fun st h =>
        (st.packed_vec.increment (h % st.packed_vec.len)).map
          (fun pv => { st with packed_vec := pv })) c) = some c2 →
      c2.num_hashes = c.num_hashes ∧
      c2.packed_vec.num_elem = c.packed_vec.num_elem := by
  induction L with
  | nil =>
    intro c c2 h
    cases h
    exact ⟨rfl, rfl⟩
  | cons h L ih =>
    intro c c2 hfold
    rw [List.foldlM_cons] at hfold
    cases hinc : c.packed_vec.increment (h % c.packed_vec.len) with
    | none =>
      rw [hinc] at hfold
      simp [Option.bind_eq_bind] at hfold
    | some pv2 =>
      rw [hinc] at hfold
      simp only [Option.map_some', Option.bind_eq_bind, Option.some_bind] at hfold
      obtain ⟨hnh, hne⟩ := ih _ _ hfold
      have hsh := PackedVec.increment_shape hinc
      exact ⟨hnh, by rw [hne]; exact hsh.1⟩

theorem CountingBloom.removeFold_shape (L : List Nat) :
    ∀ c c2 : CountingBloom, (L.foldlM (fun st h =>
        (st.packed_vec.decrement (h % st.packed_vec.len)).map
          (fun pv => { st with packed_vec := pv })) c) = some c2 →
      c2.num_hashes = c.num_hashes ∧
      c2.packed_vec.num_elem = c.packed_vec.num_elem := by
  induction L with
  | nil =>
    intro c c2 h
    cases h
    exact ⟨rfl, rfl⟩
  | cons h L ih =>
    intro c c2 hfold
    rw [List.foldlM_cons] at hfold
    cases hdec : c.packed_vec.decrement (h % c.packed_vec.len) with
    | none =>
      rw [hdec] at hfold
      simp [Option.bind_eq_bind] at hfold
    | some pv2 =>
      rw [hdec] at hfold
      simp only [Option.map_some', Option.bind_eq_bind, Option.some_bind] at hfold
      obtain ⟨hnh, hne⟩ := ih _ _ hfold
      have hsh := PackedVec.decrement_shape hdec
      exact ⟨hnh, by rw [hne]; exact hsh.1⟩

theorem CountingBloom.applyOps_shape (ops : List (Bool × List Nat)) :
    ∀ c c2 : CountingBloom, c.applyOps ops = some c2 →
      c2.num_hashes = c.num_hashes ∧
      c2.packed_vec.num_elem = c.packed_vec.num_elem := by
  induction ops with
  | nil =>
    intro c c2 h
    cases h
    exact ⟨rfl, rfl⟩
  | cons op ops ih =>
    intro c c2 h
    unfold CountingBloom.applyOps at h
    rw [List.foldlM_cons] at h
    cases hop : op.1 with
    | true =>
      rw [hop] at h
      simp only [if_true] at h
      cases hadd : c.add op.2 with
      | none =>
        rw [hadd] at h
        simp [Option.bind_eq_bind] at h
      | some c1 =>
        rw [hadd] at h
        simp only [Option.bind_eq_bind, Option.some_bind] at h
        obtain ⟨hnh, hne⟩ := ih c1 c2 h
        have hsh := CountingBloom.addFold_shape _ _ _ hadd
        exact ⟨by rw [hnh]; exact hsh.1, by rw [hne]; exact hsh.2⟩
    | false =>
      rw [hop] at h
      simp only [Bool.false_eq_true, if_false] at h
      cases hrem : c.remove op.2 with
      | none =>
        rw [hrem] at h
        simp [Option.bind_eq_bind] at h
      | some c1 =>
        rw [hrem] at h
        simp only [Option.bind_eq_bind, Option.some_bind] at h
        obtain ⟨hnh, hne⟩ := ih c1 c2 h
        have hsh := CountingBloom.removeFold_shape _ _ _ hrem
        exact ⟨by rw [hnh]; exact hsh.1, by rw [hne]; exact hsh.2⟩

theorem Bloom.addFold_preserves_shape (L : List Nat) :
    ∀ b b2 : Bloom, (L.foldlM (fun st h =>
        (bvSet st.bit_vec (h % st.bit_vec.length) true).map
          (fun bv => { st with bit_vec := bv })) b) = some b2 →
      b2.num_hashes = b.num_hashes ∧ b2.bit_vec.length = b.bit_vec.length := by
  induction L with
  | nil =>
    intro b b2 h
    cases h
    exact ⟨rfl, rfl⟩
  | cons h L ih =>
    intro b b2 hfold
    rw [List.foldlM_cons] at hfold
    cases hset : bvSet b.bit_vec (h % b.bit_vec.length) true with
    | none =>
      rw [hset] at hfold
      simp [Option.bind_eq_bind] at hfold
    | some bv =>
      rw [hset] at hfold
      simp only [Option.map_some', Option.bind_eq_bind, Option.some_bind] at hfold
      obtain ⟨hnh, hlen⟩ := ih _ _ hfold
      have hbv : bv.length = b.bit_vec.length := by
        unfold bvSet at hset
        split at hset
        · cases hset
          exact List.length_set ..
        · cases hset
      exact ⟨hnh, by rw [hlen]; exact hbv⟩

theorem Bloom.addAll_shape (ds : List (List Nat)) :
    ∀ b b2 : Bloom, b.addAll ds = some b2 →
      b2.num_hashes = b.num_hashes ∧ b2.bit_vec.length = b.bit_vec.length := by
  induction ds with
  | nil =>
    intro b b2 h
    cases h
    exact ⟨rfl, rfl⟩
  | cons d ds ih =>
    intro b b2 h
    unfold Bloom.addAll at h
    rw [List.foldlM_cons] at h
    cases hadd : b.add d with
    | none =>
      rw [hadd] at h
      simp [Option.bind_eq_bind] at h
    | some b1 =>
      rw [hadd] at h
      simp only [Option.bind_eq_bind, Option.some_bind] at h
      obtain ⟨hnh, hlen⟩ := ih b1 b2 h
      have hsh := Bloom.addFold_preserves_shape _ _ _ hadd
      exact ⟨by rw [hnh]; exact hsh.1, by rw [hlen]; exact hsh.2⟩

/-! ## Chained-operation invariants -/

theorem CountingBloom.slots_lt {c : CountingBloom} {d : List Nat}
    (hne : 0 < c.packed_vec.num_elem) :
    ∀ s ∈ c.slots d, s < c.packed_vec.num_elem := by
  intro s hs
  rcases List.mem_map.mp hs with ⟨h, _, hk⟩
  rw [← hk]
  exact Nat.mod_lt _ hne

theorem Bloom.addAll_mono (ds : List (List Nat)) :
    ∀ b b2 : Bloom, 0 < b.bit_vec.length → b.addAll ds = some b2 →
      b2.num_hashes = b.num_hashes ∧ b2.bit_vec.length = b.bit_vec.length ∧
      ∀ j, b.bit_vec.getD j false = true → b2.bit_vec.getD j false = true := by
  induction ds with
  | nil =>
    intro b b2 _ h
    cases h
    exact ⟨rfl, rfl, fun j hj => hj⟩
  | cons d ds ih =>
    intro b b2 hlen h
    unfold Bloom.addAll at h
    rw [List.foldlM_cons] at h
    obtain ⟨b1, hadd, hnh1, hlen1, hvals⟩ := Bloom.add_sets_bits b d hlen
    rw [hadd] at h
    simp only [Option.bind_eq_bind, Option.some_bind] at h
    obtain ⟨hnh2, hlen2, hmono⟩ := ih b1 b2 (by rw [hlen1]; exact hlen) h
    refine ⟨by rw [hnh2, hnh1], by rw [hlen2, hlen1], ?_⟩
    intro j hj
    apply hmono j
    rw [hvals j, hj]
    simp

theorem CountingBloom.applyOps_spec (ops : List (Bool × List Nat)) :
    ∀ c c2 : CountingBloom, c.packed_vec.WF → c.packed_vec.element_size_bits = 4 →
      0 < c.packed_vec.num_elem → c.applyOps ops = some c2 →
      c2.num_hashes = c.num_hashes ∧ c2.packed_vec.WF ∧
      c2.packed_vec.element_size_bits = 4 ∧
      c2.packed_vec.num_elem = c.packed_vec.num_elem ∧
      ∀ s, s < c.packed_vec.num_elem → 0 < c.packed_vec.valAt s →
        (∀ op ∈ ops, op.1 = false → s ∉ CountingBloom.slots c op.2) →
        0 < c2.packed_vec.valAt s := by
  induction ops with
  | nil =>
    intro c c2 hWF heb hne h
    cases h
    exact ⟨rfl, hWF, heb, rfl, fun s _ hpos _ => hpos⟩
  | cons op ops ih =>
    intro c c2 hWF heb hne h
    unfold CountingBloom.applyOps at h
    rw [List.foldlM_cons] at h
    cases hop : op.1 with
    | true =>
      rw [hop] at h
      simp only [if_true] at h
      obtain ⟨c1, hadd, hnh1, hwf1, heb1, hne1, hvals1⟩ :=
        CountingBloom.add_spec c op.2 hWF heb hne
      rw [hadd] at h
      simp only [Option.bind_eq_bind, Option.some_bind] at h
      obtain ⟨hnh2, hwf2, heb2, hne2, hpos2⟩ :=
        ih c1 c2 hwf1 heb1 (by rw [hne1]; exact hne) h
      refine ⟨by rw [hnh2, hnh1], hwf2, heb2, by rw [hne2, hne1], ?_⟩
      intro s hs hpos hdis
      refine hpos2 s (by rw [hne1]; exact hs) ?_ ?_
      · have hle := PackedVec.valAt_le (v := c.packed_vec) s
        rw [heb] at hle
        norm_num at hle
        rw [hvals1 s hs]
        omega
      · intro op2 hop2 hfalse
        have hd := hdis op2 (List.mem_cons_of_mem _ hop2) hfalse
        have hslots : CountingBloom.slots c1 op2.2 = CountingBloom.slots c op2.2 := by
          unfold CountingBloom.slots
          rw [hnh1, hne1]
        rw [hslots]
        exact hd
    | false =>
      rw [hop] at h
      simp only [Bool.false_eq_true, if_false] at h
      obtain ⟨c1, hrem, hnh1, hwf1, heb1, hne1, hvals1⟩ :=
        CountingBloom.remove_spec c op.2 hWF hne
      rw [hrem] at h
      simp only [Option.bind_eq_bind, Option.some_bind] at h
      obtain ⟨hnh2, hwf2, heb2, hne2, hpos2⟩ :=
        ih c1 c2 hwf1 (by rw [heb1]; exact heb) (by rw [hne1]; exact hne) h
      refine ⟨by rw [hnh2, hnh1], hwf2, heb2, by rw [hne2, hne1], ?_⟩
      intro s hs hpos hdis
      refine hpos2 s (by rw [hne1]; exact hs) ?_ ?_
      · have hd := hdis op (List.mem_cons_self _ _) hop
        have hcnt : List.count s (c.slots op.2) = 0 := List.count_eq_zero.mpr hd
        rw [hvals1 s hs, hcnt]
        omega
      · intro op2 hop2 hfalse
        have hd := hdis op2 (List.mem_cons_of_mem _ hop2) hfalse
        have hslots : CountingBloom.slots c1 op2.2 = CountingBloom.slots c op2.2 := by
          unfold CountingBloom.slots
          rw [hnh1, hne1]
        rw [hslots]
        exact hd

/-! ## Claim theorems -/

/-- C1: for every key k and every filter (Bloom or CountingBloom)
successfully constructed (modelled by the well-formedness each
constructor establishes), after add(k), and with any further adds and
only removes whose slots avoid the slots of k, contains(k) returns
true: there are no false negatives. -/
theorem C1_no_false_negatives :
    (∀ (b : Bloom) (d : List Nat) (ds : List (List Nat)) (b1 b2 : Bloom),
      b.WF → b.add d = some b1 → b1.addAll ds = some b2 →
      b2.contains d = some true) ∧
    (∀ (c : CountingBloom) (d : List Nat) (ops : List (Bool × List Nat))
      (c1 c2 : CountingBloom),
      c.WF →
      (∀ op ∈ ops, op.1 = false → ∀ s ∈ c.slots d, s ∉ c.slots op.2) →
      c.add d = some c1 → c1.applyOps ops = some c2 →
      (c2.contains d).map Prod.fst = some true) := by
  constructor
  · intro b d ds b1 b2 hWF hadd haddAll
    rcases hWF with hlen | hnh
    · obtain ⟨b1a, haddx, hnh1, hlen1, hvals⟩ := Bloom.add_sets_bits b d hlen
      rw [haddx] at hadd
      cases hadd
      obtain ⟨hnh2, hlen2, hmono⟩ :=
        Bloom.addAll_mono ds b1 b2 (by rw [hlen1]; exact hlen) haddAll
      rw [Bloom.contains_reads_bits b2 d (by rw [hlen2, hlen1]; exact hlen)]
      have hslots_eq : b2.slots d = b.slots d := by
        unfold Bloom.slots
        rw [hnh2, hnh1, hlen2, hlen1]
      rw [hslots_eq]
      have hall : (b.slots d).all (fun s => b2.bit_vec.getD s false) = true := by
        rw [List.all_eq_true]
        intro s hs
        apply hmono
        rw [hvals s]
        simp [hs]
      rw [hall]
    · have h1 : some b = some b1 := by
        rw [← Bloom.add_zero_hashes d hnh]
        exact hadd
      cases h1
      obtain ⟨hnh2, _⟩ := Bloom.addAll_shape ds b b2 haddAll
      exact Bloom.contains_zero_hashes d (by rw [hnh2]; exact hnh)
  · intro c d ops c1 c2 hWF hdisj hadd happly
    obtain ⟨hpvWF, heb, hdisj2⟩ := hWF
    rcases hdisj2 with hne | hnh
    · obtain ⟨c1a, haddx, hnh1, hwf1, heb1, hne1, hvals1⟩ :=
        CountingBloom.add_spec c d hpvWF heb hne
      rw [haddx] at hadd
      cases hadd
      have hpos1 : ∀ s ∈ c.slots d, 0 < c1.packed_vec.valAt s := by
        intro s hs
        have hslt := CountingBloom.slots_lt hne s hs
        rw [hvals1 s hslt]
        have hcnt : List.count s (c.slots d) ≠ 0 := fun h0 =>
          (List.count_eq_zero.mp h0) hs
        omega
      obtain ⟨hnh2, hwf2, heb2, hne2, hpos2⟩ :=
        CountingBloom.applyOps_spec ops c1 c2 hwf1 heb1 (by rw [hne1]; exact hne) happly
      have hposc2 : ∀ s ∈ c.slots d, 0 < c2.packed_vec.valAt s := by
        intro s hs
        refine hpos2 s (by rw [hne1]; exact CountingBloom.slots_lt hne s hs)
          (hpos1 s hs) ?_
        intro op hop hfalse
        have hslots1 : CountingBloom.slots c1 op.2 = CountingBloom.slots c op.2 := by
          unfold CountingBloom.slots
          rw [hnh1, hne1]
        rw [hslots1]
        exact hdisj op hop hfalse s hs
      rw [CountingBloom.contains_spec c2 d hwf2 (by rw [hne2, hne1]; exact hne)]
      have hsc2 : c2.slots d = c.slots d := by
        unfold CountingBloom.slots
        rw [hnh2, hnh1, hne2, hne1]
      rw [hsc2]
      have hall : (c.slots d).all (fun s => decide (0 < c2.packed_vec.valAt s)) = true := by
        rw [List.all_eq_true]
        intro s hs
        simpa using hposc2 s hs
      rw [hall]
      rfl
    · have h1 : some c = some c1 := by
        rw [← CountingBloom.add_zero d hnh]
        exact hadd
      cases h1
      obtain ⟨hnh2, _⟩ := CountingBloom.applyOps_shape ops c c2 happly
      rw [CountingBloom.contains_zero d (by rw [hnh2]; exact hnh)]
      rfl

/-- Witness for C1 at concrete filters: a two-bit Bloom filter and a
four-counter CountingBloom, one hash each, with the all-zero digest. -/
theorem C1_witness :
    ({ bit_vec := [true, false], num_hashes := 1 } : Bloom).contains
      (List.replicate 16 0) = some true ∧
    ((({ packed_vec := { num_elem := 4
                         element_size_bits := 4
                         bucket_size_bits := 64
                         elements_per_bucket := 16
                         data := [1152921504606846976] }
         num_hashes := 1 } :
        CountingBloom).contains (List.replicate 16 0)).map Prod.fst = some true) := by
  constructor
  · exact C1_no_false_negatives.1 { bit_vec := [false, false], num_hashes := 1 }
      (List.replicate 16 0) [] { bit_vec := [true, false], num_hashes := 1 } _
      (by decide) (by decide) rfl
  · exact C1_no_false_negatives.2 { packed_vec := PackedVec.new 4 4, num_hashes := 1 }
      (List.replicate 16 0) []
      { packed_vec := { num_elem := 4
                        element_size_bits := 4
                        bucket_size_bits := 64
                        elements_per_bucket := 16
                        data := [1152921504606846976] }
        num_hashes := 1 } _
      (by decide) (by simp) (by decide) rfl

/-- C3: for every element_bits in 1..64 (covered by well-formedness,
including the full-word case 64 where the mask is the all-ones word),
every valid index i and every value x: after set(i, x), get(i) returns
the clamp of x to the element range, other indices are unperturbed by
the set, and get itself perturbs nothing. -/
theorem C3_set_get_roundtrip (v : PackedVec) (hWF : v.WF) (i : Nat)
    (hi : i < v.num_elem) (x : Nat) :
    ∃ v2, v.set i x = some v2 ∧ v2.WF ∧
      v2.get i = some (min x (2 ^ v.element_size_bits - 1), v2) ∧
      (∀ j, j ≠ i → v2.valAt j = v.valAt j) ∧
      (∀ p, v.get i = some p → p.2 = v) := by
  have hb := PackedVec.index_div_lt hWF hi
  obtain ⟨v2, hset, hwf2, hnum2, heb2, hepb2, hbsb2, hlen2, hvi, hvj⟩ :=
    PackedVec.set_spec hWF hb x
  refine ⟨v2, hset, hwf2, ?_, hvj, fun p hp => PackedVec.get_frame hp⟩
  have hb2 : i / v2.elements_per_bucket < v2.data.length := by
    rw [hepb2, hlen2]
    exact hb
  rw [PackedVec.get_eq hb2, hvi]

/-- Witness for C3 at the clamping scenario of the test suite:
a five-element two-bit vector, set(0, 100). -/
theorem C3_witness :
    (PackedVec.new 5 2).WF ∧ 0 < (PackedVec.new 5 2).num_elem ∧
    (∃ v2, (PackedVec.new 5 2).set 0 100 = some v2 ∧ v2.WF ∧
      v2.get 0 = some (min 100 (2 ^ (PackedVec.new 5 2).element_size_bits - 1), v2) ∧
      (∀ j, j ≠ 0 → v2.valAt j = (PackedVec.new 5 2).valAt j) ∧
      (∀ p, (PackedVec.new 5 2).get 0 = some p → p.2 = PackedVec.new 5 2)) :=
  ⟨by decide, by decide,
    C3_set_get_roundtrip (PackedVec.new 5 2) (by decide) 0 (by decide) 100⟩

/-- C5 counterexample: a PackedVec of 20 four-bit counters has capacity
for 32 (two 64-bit words), and direct access at index 20, which is not
less than num_elements, succeeds instead of failing. -/
theorem C5_counterexample :
    (PackedVec.new 20 4).num_elem ≤ 20 ∧
    ((PackedVec.new 20 4).get 20).isSome = true ∧
    ((PackedVec.new 20 4).increment 20).isSome = true := by
  decide

/-- C5 amended: direct element access succeeds at every index strictly
below num_elements, and fails exactly at the indices at or beyond the
allocated capacity data.length * elements_per_bucket, which exceeds
num_elements whenever num_elements is not a multiple of
elements_per_bucket. -/
theorem C5_amended (v : PackedVec) (hWF : v.WF) :
    (∀ i, i < v.num_elem →
      (v.get i).isSome = true ∧ (v.increment i).isSome = true ∧
      (v.decrement i).isSome = true ∧ ∀ x, (v.set i x).isSome = true) ∧
    (∀ i, ((v.get i).isSome = true ↔
        i < v.data.length * v.elements_per_bucket) ∧
      ((v.increment i).isSome = true ↔ i < v.data.length * v.elements_per_bucket) ∧
      ((v.decrement i).isSome = true ↔ i < v.data.length * v.elements_per_bucket) ∧
      ∀ x, ((v.set i x).isSome = true ↔
        i < v.data.length * v.elements_per_bucket)) := by
  have hep : 0 < v.elements_per_bucket := hWF.epb_pos
  have hcap : ∀ i (f : Nat → Option Nat), (v.with_element i f).isSome = true ↔
      i < v.data.length * v.elements_per_bucket := by
    intro i f
    rw [PackedVec.with_element_isSome]
    exact Nat.div_lt_iff_lt_mul hep
  constructor
  · intro i hi
    have hb := PackedVec.index_div_lt hWF hi
    have hblt : i < v.data.length * v.elements_per_bucket :=
      (Nat.div_lt_iff_lt_mul hep).mp hb
    refine ⟨?_, ?_, ?_, fun x => ?_⟩
    · rw [PackedVec.get]
      exact (hcap i _).mpr hblt
    · rw [PackedVec.increment, Option.isSome_map']
      exact (hcap i _).mpr hblt
    · rw [PackedVec.decrement, Option.isSome_map']
      exact (hcap i _).mpr hblt
    · rw [PackedVec.set, Option.isSome_map']
      exact (hcap i _).mpr hblt
  · intro i
    refine ⟨?_, ?_, ?_, fun x => ?_⟩
    · rw [PackedVec.get]
      exact hcap i _
    · rw [PackedVec.increment, Option.isSome_map']
      exact hcap i _
    · rw [PackedVec.decrement, Option.isSome_map']
      exact hcap i _
    · rw [PackedVec.set, Option.isSome_map']
      exact hcap i _

/-- Witness for C5 amended at the twenty-element four-bit vector. -/
theorem C5_witness :
    (PackedVec.new 20 4).WF ∧
    (((PackedVec.new 20 4).get 0).isSome = true ↔
      0 < (PackedVec.new 20 4).data.length * (PackedVec.new 20 4).elements_per_bucket) :=
  ⟨by decide, ((C5_amended (PackedVec.new 20 4) (by decide)).2 0).1⟩

/-- C7: on a well-formed counting filter with at least one hash, for a
key whose slots are all at zero (no collision with any other inserted
key), add(k) then remove(k) makes contains(k) return false. -/
theorem C7_add_remove_symmetry (c : CountingBloom) (d : List Nat)
    (hWF : c.packed_vec.WF) (heb : c.packed_vec.element_size_bits = 4)
    (hne : 0 < c.packed_vec.num_elem) (hnh : 0 < c.num_hashes)
    (hz : ∀ s ∈ c.slots d, c.packed_vec.valAt s = 0) :
    ∃ c1 c2, c.add d = some c1 ∧ c1.remove d = some c2 ∧
      c2.contains d = some (false, c2) := by
  obtain ⟨c1, hadd, hnh1, hwf1, heb1, hne1, hvals1⟩ :=
    CountingBloom.add_spec c d hWF heb hne
  obtain ⟨c2, hrem, hnh2, hwf2, heb2, hne2, hvals2⟩ :=
    CountingBloom.remove_spec c1 d hwf1 (by rw [hne1]; exact hne)
  refine ⟨c1, c2, hadd, hrem, ?_⟩
  have hslots1 : c1.slots d = c.slots d := by
    unfold CountingBloom.slots
    rw [hnh1, hne1]
  have hslots2 : c2.slots d = c.slots d := by
    unfold CountingBloom.slots
    rw [hnh2, hnh1, hne2, hne1]
  have hzero2 : ∀ s ∈ c.slots d, c2.packed_vec.valAt s = 0 := by
    intro s hs
    have hslt := CountingBloom.slots_lt hne s hs
    have h1 : c1.packed_vec.valAt s = min (List.count s (c.slots d)) 15 := by
      rw [hvals1 s hslt, hz s hs]
      simp
    have h2 := hvals2 s (by rw [hne1]; exact hslt)
    rw [hslots1] at h2
    rw [h2, h1]
    omega
  rw [CountingBloom.contains_spec c2 d hwf2 (by rw [hne2, hne1]; exact hne), hslots2]
  have hlen : c.slots d ≠ [] := by
    have hl : (c.slots d).length = c.num_hashes := by
      unfold CountingBloom.slots
      rw [List.length_map, Hashes.take_length]
    intro hnil
    rw [hnil] at hl
    simp at hl
    omega
  obtain ⟨s0, hs0⟩ := List.exists_mem_of_ne_nil _ hlen
  have hfalse : (c.slots d).all (fun s => decide (0 < c2.packed_vec.valAt s)) = false := by
    apply List.all_eq_false.mpr
    exact ⟨s0, hs0, by rw [hzero2 s0 hs0]; simp⟩
  rw [hfalse]

/-- Witness for C7: a fresh four-counter filter with one hash and the
all-zero digest. -/
theorem C7_witness :
    (PackedVec.new 4 4).WF ∧
    (∃ c1 c2, ({ packed_vec := PackedVec.new 4 4, num_hashes := 1 } :
        CountingBloom).add (List.replicate 16 0) = some c1 ∧
      c1.remove (List.replicate 16 0) = some c2 ∧
      c2.contains (List.replicate 16 0) = some (false, c2)) :=
  ⟨by decide,
    C7_add_remove_symmetry { packed_vec := PackedVec.new 4 4, num_hashes := 1 }
      (List.replicate 16 0) (by decide) (by decide) (by decide) (by decide)
      (by decide)⟩

theorem CountingBloom.containsFold_frame (L : List Nat) :
    ∀ (c : CountingBloom) (a : Bool) (r : Bool × CountingBloom),
      (L.foldlM (fun acc h =>
          (acc.2.packed_vec.get (h % acc.2.packed_vec.len)).map
            (fun rr => (acc.1 && decide (0 < rr.1),
              { acc.2 with packed_vec := rr.2 }))) ((a, c) : Bool × CountingBloom)) =
        some r →
      r.2 = c := by
  induction L with
  | nil =>
    intro c a r h
    cases h
    rfl
  | cons h L ih =>
    intro c a r hfold
    rw [List.foldlM_cons] at hfold
    cases hget : c.packed_vec.get (h % c.packed_vec.len) with
    | none =>
      rw [hget] at hfold
      simp [Option.bind_eq_bind] at hfold
    | some rr =>
      rw [hget] at hfold
      simp only [Option.map_some', Option.bind_eq_bind, Option.some_bind] at hfold
      have hrr : rr.2 = c.packed_vec := PackedVec.get_frame hget
      have hres := ih _ _ _ hfold
      rw [hres, hrr]

/-- C10: although CountingBloom contains and PackedVec get take the
structure by mutable reference, they leave the entire state unchanged,
and repeated calls on the same state return the same result. -/
theorem C10_reads_pure :
    (∀ (v : PackedVec) (i : Nat) (p : Nat × PackedVec),
      v.get i = some p → p.2 = v) ∧
    (∀ (c : CountingBloom) (d : List Nat) (r : Bool × CountingBloom),
      c.contains d = some r → r.2 = c) ∧
    (∀ (v : PackedVec) (i : Nat) (p : Nat × PackedVec),
      v.get i = some p → p.2.get i = some p) ∧
    (∀ (c : CountingBloom) (d : List Nat) (r : Bool × CountingBloom),
      c.contains d = some r → r.2.contains d = some r) := by
  have hframe : ∀ (c : CountingBloom) (d : List Nat) (r : Bool × CountingBloom),
      c.contains d = some r → r.2 = c := by
    intro c d r h
    exact CountingBloom.containsFold_frame (Hashes.take (key_hashes d) c.num_hashes)
      c true r h
  refine ⟨fun v i p h => PackedVec.get_frame h, hframe, ?_, ?_⟩
  · intro v i p h
    rw [PackedVec.get_frame h]
    exact h
  · intro c d r h
    rw [hframe c d r h]
    exact h

/-- Witness for C10 at an eight-counter filter with the all-zero digest. -/
theorem C10_witness :
    ((PackedVec.new 8 4).get 0 = some (0, PackedVec.new 8 4)) ∧
    (((0, PackedVec.new 8 4) : Nat × PackedVec).2 = PackedVec.new 8 4) ∧
    (({ packed_vec := PackedVec.new 8 4, num_hashes := 1 } : CountingBloom).contains
        (List.replicate 16 0) =
      some (false, { packed_vec := PackedVec.new 8 4, num_hashes := 1 })) ∧
    (((false, ({ packed_vec := PackedVec.new 8 4, num_hashes := 1 } : CountingBloom)) :
        Bool × CountingBloom).2 =
      { packed_vec := PackedVec.new 8 4, num_hashes := 1 }) :=
  ⟨by decide, C10_reads_pure.1 _ 0 _ (by decide), by decide,
    C10_reads_pure.2.1 _ (List.replicate 16 0) _ (by decide)⟩

theorem optimal_num_hashes_zero (n : Nat) : optimal_num_hashes 0 n = 0 := by
  unfold optimal_num_hashes
  norm_num

/-- C8: every post-construction operation is total: on well-formed
filters (as produced by the constructors, whose outputs are shown well
formed in the last two conjuncts), add, contains and remove succeed for
every key, because every hash value is reduced modulo the storage size
before indexing. -/
theorem C8_operations_total :
    (∀ (b : Bloom) (d : List Nat), b.WF →
      (b.add d).isSome = true ∧ (b.contains d).isSome = true) ∧
    (∀ (c : CountingBloom) (d : List Nat), c.WF →
      (c.add d).isSome = true ∧ (c.remove d).isSome = true ∧
      (c.contains d).isSome = true) ∧
    (∀ (n : Nat) (p : ℝ) (b : Bloom), Bloom.new n p = some b → b.WF) ∧
    (∀ (n : Nat) (p : ℝ) (c : CountingBloom), CountingBloom.new n p = some c → c.WF) := by
  refine ⟨?_, ?_, ?_, ?_⟩
  · intro b d hWF
    rcases hWF with hlen | hnh
    · obtain ⟨b2, hadd, _, _, _⟩ := Bloom.add_sets_bits b d hlen
      rw [hadd, Bloom.contains_reads_bits b d hlen]
      exact ⟨rfl, rfl⟩
    · rw [Bloom.add_zero_hashes d hnh, Bloom.contains_zero_hashes d hnh]
      exact ⟨rfl, rfl⟩
  · intro c d hWF
    obtain ⟨hpvWF, heb, hdisj⟩ := hWF
    rcases hdisj with hne | hnh
    · obtain ⟨c2, hadd, _⟩ := CountingBloom.add_spec c d hpvWF heb hne
      obtain ⟨c3, hrem, _⟩ := CountingBloom.remove_spec c d hpvWF hne
      rw [hadd, hrem, CountingBloom.contains_spec c d hpvWF hne]
      exact ⟨rfl, rfl, rfl⟩
    · rw [CountingBloom.add_zero d hnh, CountingBloom.remove_zero d hnh,
        CountingBloom.contains_zero d hnh]
      exact ⟨rfl, rfl, rfl⟩
  · intro n p b h
    unfold Bloom.new filter_new at h
    split at h
    · simp only [Option.map_some'] at h
      cases h
      unfold Bloom.WF
      cases hnb : optimal_num_bits n p with
      | zero =>
        right
        simp [hnb, optimal_num_hashes_zero]
      | succ m =>
        left
        simp [hnb]
    · simp at h
  · intro n p c h
    unfold CountingBloom.new filter_new at h
    split at h
    · simp only [Option.map_some'] at h
      cases h
      refine ⟨PackedVec.new_WF (by norm_num) (by norm_num), rfl, ?_⟩
      cases hnb : optimal_num_bits n p with
      | zero =>
        right
        simp [hnb, optimal_num_hashes_zero]
      | succ m =>
        left
        simp [PackedVec.new, hnb]
    · simp at h

/-- Witness for C8 at concrete small filters and the all-zero digest. -/
theorem C8_witness :
    (({ bit_vec := [false, false], num_hashes := 1 } : Bloom).WF ∧
      ((({ bit_vec := [false, false], num_hashes := 1 } : Bloom).add
        (List.replicate 16 0)).isSome = true ∧
      ((({ bit_vec := [false, false], num_hashes := 1 } : Bloom).contains
        (List.replicate 16 0)).isSome = true))) ∧
    (({ packed_vec := PackedVec.new 4 4, num_hashes := 1 } : CountingBloom).WF ∧
      ((({ packed_vec := PackedVec.new 4 4, num_hashes := 1 } : CountingBloom).add
        (List.replicate 16 0)).isSome = true ∧
      (((({ packed_vec := PackedVec.new 4 4, num_hashes := 1 } : CountingBloom).remove
        (List.replicate 16 0)).isSome = true) ∧
      ((({ packed_vec := PackedVec.new 4 4, num_hashes := 1 } : CountingBloom).contains
        (List.replicate 16 0)).isSome = true)))) :=
  ⟨⟨by decide, C8_operations_total.1 { bit_vec := [false, false], num_hashes := 1 }
      (List.replicate 16 0) (by decide)⟩,
   ⟨by decide, C8_operations_total.2.1 { packed_vec := PackedVec.new 4 4, num_hashes := 1 }
      (List.replicate 16 0) (by decide)⟩⟩

/-- C2: the failing input for the saturation claim. With
element_size_bits = 64 (the storage word width) and the counter at its
maximum 2^64 - 1, increment computes element + 1 in usize before
clamping; the addition overflows (wrapping to 0 in a release build,
panicking in a debug build), so the counter drops from the maximum to 0
instead of saturating. For every element_size_bits up to 63 the claimed
clamping does hold (see the lemmas increment_spec and decrement_spec). -/
theorem C2_increment_overflow_at_word_width :
    (PackedVec.new 1 64).set 0 (U64 - 1) =
      some { num_elem := 1
             element_size_bits := 64
             bucket_size_bits := 64
             elements_per_bucket := 1
             data := [U64 - 1] } ∧
    ({ num_elem := 1
       element_size_bits := 64
       bucket_size_bits := 64
       elements_per_bucket := 1
       data := [U64 - 1] } : PackedVec).valAt 0 = U64 - 1 ∧
    ({ num_elem := 1
       element_size_bits := 64
       bucket_size_bits := 64
       elements_per_bucket := 1
       data := [U64 - 1] } : PackedVec).increment 0 =
      some { num_elem := 1
             element_size_bits := 64
             bucket_size_bits := 64
             elements_per_bucket := 1
             data := [0] } ∧
    ({ num_elem := 1
       element_size_bits := 64
       bucket_size_bits := 64
       elements_per_bucket := 1
       data := [0] } : PackedVec).valAt 0 = 0 := by
  decide

/-- C4 counterexample: constructing with expected_items = 0 (and a
valid rate) is not rejected; both constructors succeed, producing the
degenerate zero-bit, zero-hash filter. -/
theorem C4_counterexample :
    (Bloom.new 0 ((1 : ℝ) / 2)).isSome = true ∧
    (CountingBloom.new 0 ((1 : ℝ) / 2)).isSome = true := by
  constructor
  · unfold Bloom.new filter_new
    rw [if_pos (by norm_num)]
    rfl
  · unfold CountingBloom.new filter_new
    rw [if_pos (by norm_num)]
    rfl

/-- C4 amended: construction of either filter fails exactly when the
target false-positive rate lies outside the open interval (0, 1); the
assert precedes the sizing computation and the allocation, and nothing
else in the constructor can fail, so expected_items plays no role in
acceptance (expected_items = 0 is accepted). The rates 0, 1, -1/10 and
3/2 are all rejected. -/
theorem C4_amended :
    (∀ (n : Nat) (p : ℝ), (Bloom.new n p).isSome = true ↔ (0 < p ∧ p < 1)) ∧
    (∀ (n : Nat) (p : ℝ),
      (CountingBloom.new n p).isSome = true ↔ (0 < p ∧ p < 1)) ∧
    (∀ n : Nat, Bloom.new n (0 : ℝ) = none ∧ Bloom.new n (1 : ℝ) = none ∧
      Bloom.new n (-(1 / 10) : ℝ) = none ∧ Bloom.new n ((3 : ℝ) / 2) = none ∧
      CountingBloom.new n (0 : ℝ) = none ∧ CountingBloom.new n (1 : ℝ) = none ∧
      CountingBloom.new n (-(1 / 10) : ℝ) = none ∧
      CountingBloom.new n ((3 : ℝ) / 2) = none) := by
  have hb : ∀ (n : Nat) (p : ℝ), (Bloom.new n p).isSome = true ↔ (0 < p ∧ p < 1) := by
    intro n p
    unfold Bloom.new filter_new
    by_cases hp : 0 < p ∧ p < 1
    · rw [if_pos hp]
      simp [hp]
    · rw [if_neg hp]
      simp [hp]
  have hc : ∀ (n : Nat) (p : ℝ),
      (CountingBloom.new n p).isSome = true ↔ (0 < p ∧ p < 1) := by
    intro n p
    unfold CountingBloom.new filter_new
    by_cases hp : 0 < p ∧ p < 1
    · rw [if_pos hp]
      simp [hp]
    · rw [if_neg hp]
      simp [hp]
  refine ⟨hb, hc, ?_⟩
  intro n
  have hnone : ∀ p : ℝ, ¬ (0 < p ∧ p < 1) → Bloom.new n p = none := by
    intro p hp
    unfold Bloom.new filter_new
    rw [if_neg hp]
    rfl
  have hnonec : ∀ p : ℝ, ¬ (0 < p ∧ p < 1) → CountingBloom.new n p = none := by
    intro p hp
    unfold CountingBloom.new filter_new
    rw [if_neg hp]
    rfl
  exact ⟨hnone 0 (by norm_num), hnone 1 (by norm_num), hnone _ (by norm_num),
    hnone _ (by norm_num), hnonec 0 (by norm_num), hnonec 1 (by norm_num),
    hnonec _ (by norm_num), hnonec _ (by norm_num)⟩

/-- C6: the hash stream for a key is initialized with base = digest
bytes 0..8 read big-endian and increment = the overlapping digest bytes
4..12 read big-endian; the n-th value produced is
(base + n * increment) mod 2^64, next never returns None, and the
sequence consumed by take is exactly that arithmetic progression. Two
streams built from the same key coincide, since the construction is a
function of the digest and the digest function is deterministic. -/
theorem C6_hash_stream (d : List Nat) (hd : ∀ x ∈ d, x < 256) (n : Nat) :
    key_hashes d = Hashes.new (readU64BE d 0) (readU64BE d 4) ∧
    Hashes.nth (key_hashes d) n =
      some ((readU64BE d 0 + n * readU64BE d 4) % U64) ∧
    (∀ h : Hashes, (h.next).1.isSome = true) ∧
    Hashes.take (key_hashes d) n =
      (List.range n).map (fun k => (readU64BE d 0 + k * readU64BE d 4) % U64) := by
  have hb := readU64BE_lt hd 0
  exact ⟨rfl, Hashes.nth_eq hb n, fun h => Hashes.next_isSome h, Hashes.take_eq hb n⟩

/-- Witness for C6 at the all-255 digest and n = 2. -/
theorem C6_witness :
    (∀ x ∈ List.replicate 16 (255 : Nat), x < 256) ∧
    Hashes.nth (key_hashes (List.replicate 16 255)) 2 =
      some ((readU64BE (List.replicate 16 255) 0 +
        2 * readU64BE (List.replicate 16 255) 4) % U64) :=
  ⟨by decide, (C6_hash_stream (List.replicate 16 255) (by decide) 2).2.1⟩

theorem log_five_quarters_bounds :
    (147409051 / 660602880 : ℝ) ≤ Real.log (5 / 4) ∧
    Real.log (5 / 4) ≤ (147409471 / 660602880 : ℝ) := by
  have hx : |(-(1 / 4) : ℝ)| = 1 / 4 := by
    rw [abs_neg]
    exact abs_of_pos (by norm_num)
  have h54 := Real.abs_log_sub_add_sum_range_le (x := -(1 / 4 : ℝ))
    (by rw [hx]; norm_num) 10
  rw [hx] at h54
  have h1x : (1 : ℝ) - -(1 / 4) = 5 / 4 := by norm_num
  rw [h1x] at h54
  have hsum : (∑ i ∈ Finset.range 10, (-(1 / 4) : ℝ) ^ (i + 1) / ((i : ℝ) + 1)) =
      -(147409261 / 660602880 : ℝ) := by
    rw [Finset.sum_range_succ, Finset.sum_range_succ, Finset.sum_range_succ,
      Finset.sum_range_succ, Finset.sum_range_succ, Finset.sum_range_succ,
      Finset.sum_range_succ, Finset.sum_range_succ, Finset.sum_range_succ,
      Finset.sum_range_succ, Finset.sum_range_zero]
    norm_num
  rw [hsum] at h54
  have heps : ((1 : ℝ) / 4) ^ (10 + 1) / (1 - 1 / 4) = 1 / 3145728 := by norm_num
  rw [heps] at h54
  have hb := abs_le.mp h54
  constructor
  · linarith [hb.1]
  · linarith [hb.2]

theorem log_hundred_eq :
    Real.log 100 = 6 * Real.log 2 + 2 * Real.log (5 / 4) := by
  have he : (100 : ℝ) = 2 ^ 6 * (5 / 4) ^ 2 := by norm_num
  rw [he, Real.log_mul (by positivity) (by positivity), Real.log_pow, Real.log_pow]
  push_cast
  ring

/-- C9: the sizing formulas of the constructors (modelled over the
reals, the f64 arithmetic of the source being an approximation of
these exact quantities well within the rounding slack): num_bits is
round(num_items * ln(1 / p) / (ln 2)^2), num_hashes is
round(num_bits * ln 2 / num_items), and at (10000, 1/100) they produce
exactly 95851 bits and 7 hashes. -/
theorem C9_sizing_formula :
    optimal_num_bits 10000 (1 / 100) = 95851 ∧
    optimal_num_hashes 95851 10000 = 7 ∧
    (∀ (n : Nat) (p : ℝ), optimal_num_bits n p =
      (round ((n : ℝ) * Real.log (1 / p) / Real.log 2 ^ 2)).toNat) := by
  have hlog2_lo : (0.6931471803 : ℝ) < Real.log 2 := Real.log_two_gt_d9
  have hlog2_hi : Real.log 2 < 0.6931471808 := Real.log_two_lt_d9
  have hlog2_pos : (0 : ℝ) < Real.log 2 := by linarith
  have hsq_pos : (0 : ℝ) < Real.log 2 * Real.log 2 := mul_pos hlog2_pos hlog2_pos
  have hd2 : Real.log 2 * Real.log 2 < (0.4804530143 : ℝ) := by
    nlinarith
  have hc2 : (0.4804530134 : ℝ) < Real.log 2 * Real.log 2 := by
    nlinarith
  obtain ⟨h54lo, h54hi⟩ := log_five_quarters_bounds
  refine ⟨?_, ?_, ?_⟩
  · unfold optimal_num_bits
    have harg : ((10000 : ℕ) : ℝ) * Real.log (1 / (1 / 100)) /
        (Real.log 2 * Real.log 2) =
        10000 * Real.log 100 / (Real.log 2 * Real.log 2) := by
      norm_num
    rw [harg]
    have hXlo : (95850.5 : ℝ) ≤ 10000 * Real.log 100 / (Real.log 2 * Real.log 2) := by
      rw [le_div_iff hsq_pos, log_hundred_eq]
      linarith
    have hXhi : 10000 * Real.log 100 / (Real.log 2 * Real.log 2) < (95851.5 : ℝ) := by
      rw [div_lt_iff hsq_pos, log_hundred_eq]
      linarith
    have hround : round (10000 * Real.log 100 / (Real.log 2 * Real.log 2)) =
        (95851 : ℤ) := by
      rw [round_eq, Int.floor_eq_iff]
      constructor
      · push_cast
        linarith
      · push_cast
        linarith
    rw [hround]
    rfl
  · unfold optimal_num_hashes
    have hYlo : (6.5 : ℝ) ≤ ((95851 : ℕ) : ℝ) * Real.log 2 / ((10000 : ℕ) : ℝ) := by
      rw [le_div_iff (by norm_num)]
      push_cast
      linarith
    have hYhi : ((95851 : ℕ) : ℝ) * Real.log 2 / ((10000 : ℕ) : ℝ) < (7.5 : ℝ) := by
      rw [div_lt_iff (by norm_num)]
      push_cast
      linarith
    have hround : round (((95851 : ℕ) : ℝ) * Real.log 2 / ((10000 : ℕ) : ℝ)) =
        (7 : ℤ) := by
      rw [round_eq, Int.floor_eq_iff]
      constructor
      · push_cast
        linarith
      · push_cast
        linarith
    rw [hround]
    rfl
  · intro n p
    unfold optimal_num_bits
    rw [sq]

end Blooming
